import Mathlib

/-!
# A shallow embedding of the react-store reactive engine

This file embeds the core of `src/index.js` of `longsien/react-store`
(the variant that includes async derived stores) and proves properties of
its mutation / derived-store / proxy machinery.

Modelling conventions:
* JavaScript reference identity is made explicit: containers (plain objects
  and arrays) live on an append-only heap, and a `JSVal.ref` carries a heap
  address, so `Object.is` equality coincides with definitional equality on
  `JSVal`.  Numbers are modelled as integers (no float/NaN behaviour is
  exercised by the code paths covered here); string index/length properties
  of primitive strings and non-index string properties of arrays are not
  modelled (no covered operation reads them back).
* Thrown exceptions inside compute functions are modelled by `Option`
  (`none` = throw), matching the try/catch structure of the source.
* The unbounded cascade recursion of `computeDerivedValue` is indexed by
  fuel; every theorem below supplies enough fuel for its configuration.
-/

namespace ReactStore

/-- JavaScript values.  A `ref` is a pointer into the heap, so definitional
equality on `JSVal` is exactly JS `Object.is` for the values modelled. -/
inductive JSVal where
  | undef
  | null
  | bool (b : Bool)
  | num (n : Int)
  | str (s : String)
  | ref (addr : Nat)
deriving DecidableEq, Repr, Inhabited

/-- Heap containers: plain objects as association lists, arrays as dense
element lists together with their expando (non-index, non-`length`)
string-keyed properties, which JS array objects carry like any object and
which `newObj[key] = value` on an array creates. -/
inductive Container where
  | obj (fields : List (String × JSVal))
  | arr (elems : List JSVal) (props : List (String × JSVal))
deriving DecidableEq, Repr, Inhabited

abbrev Heap := List Container

/-- `typeof obj === 'object' && obj !== null` for the values modelled
(`null` is falsy, so `!obj` already excludes it in the source's guard). -/
def isObjectVal : JSVal → Bool
  | .ref _ => true
  | _ => false

/-- Whether the value is a primitive string. -/
def isStringVal : JSVal → Bool
  | .str _ => true
  | _ => false

/-- JS falsiness of the values modelled (for the source's `x || {}`). -/
def isFalsy : JSVal → Bool
  | .undef => true
  | .null => true
  | .bool b => !b
  | .num n => n == 0
  | .str s => s == ""
  | .ref _ => false

/-- Parse a run of decimal digits (the whole list must be digits). -/
def parseDigits (acc : Nat) : List Char → Option Nat
  | [] => some acc
  | c :: cs =>
    if '0' ≤ c ∧ c ≤ '9' then parseDigits (acc * 10 + (c.toNat - '0'.toNat)) cs
    else none

/-- A canonical array index: the key is the decimal numeral of `i` with
`i < 2^32 - 1` (the round-trip check rejects leading zeros, signs and the
empty string, and the bound matches the JS array-index definition —
`"4294967295"` and larger numerals are ordinary property keys). -/
def canonIndex (k : String) : Option Nat :=
  match parseDigits 0 k.data with
  | some i => if toString i = k ∧ i < 4294967295 then some i else none
  | none => none

/-- Read a field of a plain object (missing field = `undefined`). -/
def assocGet (fields : List (String × JSVal)) (k : String) : JSVal :=
  match fields.lookup k with
  | some v => v
  | none => JSVal.undef

/-- Functionally set a field of a plain object. -/
def assocSet (fields : List (String × JSVal)) (k : String) (v : JSVal) :
    List (String × JSVal) :=
  match fields with
  | [] => [(k, v)]
  | (k0, v0) :: rest =>
    if k0 = k then (k0, v) :: rest else (k0, v0) :: assocSet rest k v

/-- Set an array element, extending with `undefined` holes past the end
(JS assignment beyond `length` creates holes that read as `undefined`). -/
def listSetPad (elems : List JSVal) (i : Nat) (v : JSVal) : List JSVal :=
  if i < elems.length then elems.set i v
  else elems ++ List.replicate (i - elems.length) .undef ++ [v]

/-- Property read on a container (`c[k]`): object field, array element,
array `length`, or array expando property. -/
def Container.getKey : Container → String → JSVal
  | .obj fields, k => assocGet fields k
  | .arr elems props, k =>
    match canonIndex k with
    | some i => elems.getD i .undef
    | none => if k = "length" then .num elems.length else assocGet props k

/-- The value assigned to an array's `length`, coerced ToUint32-style for
the value space modelled: non-negative integers, booleans (`1`/`0`),
`null` (`0`) and unsigned decimal numeral strings (including `""`, which
coerces to `0`), all below `2^32`, resize the array; every other assigned
value (negative or too-large numbers, `undefined`, non-numeral strings,
objects) throws a `RangeError` in the source and is returned as `none`
here.  Exotic numeric strings
(`"0x10"`, `" 1 "`, `"1e2"`) and fractional lengths are outside the
modelled value space (numbers are integers here). -/
def lengthValue : JSVal → Option Nat
  | .num n => if 0 ≤ n ∧ n < 4294967296 then some n.toNat else none
  | .bool b => some (if b then 1 else 0)
  | .null => some 0
  | .str s =>
    match parseDigits 0 s.data with
    | some n => if n < 4294967296 then some n else none
    | none => none
  | _ => none

/-- Property write on a container (`c[k] = v`): object field set, array
element set (with holes past the end), array `length` assignment
(truncating or extending, per `lengthValue`; an assignment that throws a
`RangeError` in JS never installs a state — it is represented by the
no-write result, the thrown exception itself not being tracked), or
array expando property set. -/
def Container.setKey : Container → String → JSVal → Container
  | .obj fields, k, v => .obj (assocSet fields k v)
  | .arr elems props, k, v =>
    match canonIndex k with
    | some i => .arr (listSetPad elems i v) props
    | none =>
      if k = "length" then
        match lengthValue v with
        | some n => .arr (elems.take n ++ List.replicate (n - elems.length) .undef) props
        | none => .arr elems props
      else .arr elems (assocSet props k v)

/-- The source's shallow copy `Array.isArray(obj) ? [...obj] : {...obj}`
(source line 69): object spread keeps every own enumerable property, but
array spread iterates the elements only, silently dropping expando
properties (holes become `undefined` elements, indistinguishable here
since holes already read as `undefined`). -/
def Container.copy : Container → Container
  | .obj fields => .obj fields
  | .arr elems _ => .arr elems []

/-- Shallow copy (`[...obj]` / `\x7b...obj\x7d`): same contents, fresh
address (addresses are produced by the allocation sites below). -/
def heapAlloc (h : Heap) (c : Container) : Heap × JSVal :=
  (h ++ [c], .ref h.length)

/-- `current?.[key]` — optional-chaining property read of a value.  The
`?.` short-circuits only on `null`/`undefined`; primitive strings expose
their `length` and their characters at canonical indices (as code-point
sequences; UTF-16 surrogate-pair length effects are not modelled), while
numbers and booleans have no own properties.  Prototype methods
(`"abc"["slice"]`, `(5)["toString"]`, …) are functions, which are outside
the modelled value space, and read as `undefined` here; no covered
operation of the spec reads them. -/
def lookupKey (h : Heap) (v : JSVal) (k : String) : JSVal :=
  match v with
  | .ref a =>
    match h[a]? with
    | some c => c.getKey k
    | none => .undef
  | .str s =>
    match canonIndex k with
    | some i =>
      match s.data[i]? with
      | some ch => .str (String.singleton ch)
      | none => .undef
    | none => if k = "length" then .num s.data.length else .undef
  | _ => JSVal.undef

/-- `getValueAtPath` (source lines 60-64): fold of optional-chaining reads
over the path. -/
def getValueAtPath (h : Heap) (obj : JSVal) (path : List String) : JSVal :=
  path.foldl (lookupKey h) obj

/-- The container behind a value, if any: models the source's
`!obj || typeof obj !== 'object'` guard (`null`, `undefined` and
primitives fail it) followed by the dereference of the object. -/
def heapContainer (h : Heap) : JSVal → Option Container
  | .ref a => h[a]?
  | _ => none

/-- `setValueAtPath` (source lines 66-79): copy-on-write update along a
path.  A non-object (or dangling) value is replaced wholesale by `value`;
otherwise the container is shallow-copied (`[...obj]` / spread), and for
a longer path the recursion descends into `obj?.[key] || \x7b\x7d`.  The
empty-path case cannot be reached from `createSetState` (which writes the
root directly); it is given the non-object result. -/
def setValueAtPath (h : Heap) (obj : JSVal) (path : List String) (value : JSVal) :
    Heap × JSVal :=
  match path with
  | [] => (h, value)
  | [k] =>
    match heapContainer h obj with
    | none => (h, value)
    | some c => heapAlloc h (c.copy.setKey k value)
  | k :: k2 :: rest2 =>
    match heapContainer h obj with
    | none => (h, value)
    | some c =>
      let child := c.getKey k
      let (h1, childObj) :=
        if isFalsy child then heapAlloc h (Container.obj [])
        else (h, child)
      let (h2, newChild) := setValueAtPath h1 childObj (k2 :: rest2) value
      heapAlloc h2 (c.copy.setKey k newChild)

/-- Compute functions (`getter` / `computeFn` / `asyncFn` bodies) as the
free monad over store reads: `read sid k` models a call `get(someStore)`
followed by the rest of the computation, `throwErr` a thrown exception. -/
inductive ComputeFn where
  | ret (v : JSVal)
  | throwErr
  | read (sid : Nat) (k : JSVal → ComputeFn)

instance : Inhabited ComputeFn := ⟨.ret .undef⟩

/-- The store objects kept in `stateMap`.  The WeakMap side tables of the
source (`dependencyMap`, `derivedStoreMap`) are keyed by object identity,
so they are represented as per-store fields: `dependents` is this store's
entry in `dependencyMap`, and `isDerived` is membership in
`derivedStoreMap` (exactly the derived stores are put there).
`pending` holds the outcome of an in-flight `asyncFn` invocation awaiting
its `.then`/`.catch` delivery; `invocations` counts `asyncFn` calls. -/
structure StoreObj where
  value : JSVal := .undef
  listeners : List Nat := []
  isDerived : Bool := false
  getter : ComputeFn := .ret .undef
  dependencies : List Nat := []
  lastComputedValue : JSVal := .undef
  isAsync : Bool := false
  isRunning : Bool := false
  lastInputValue : JSVal := .undef
  asyncFn : ComputeFn := .ret .undef
  targetId : Nat := 0
  pending : Option (Option JSVal) := none
  dependents : List Nat := []
  invocations : Nat := 0

instance : Inhabited StoreObj := ⟨{}⟩

/-- Observable events: one entry per listener callback invocation. -/
inductive Event where
  | listenerFired (sid : Nat) (l : Nat)
deriving DecidableEq, Repr

/-- The whole engine state: the stores (ids are list indices), the heap,
the log of listener invocations, and the proxy cache (`proxyCache`), one
entry per created proxy, keyed by store id and joined path. -/
structure World where
  stores : List StoreObj := []
  heap : Heap := []
  log : List Event := []
  proxies : List ((Nat × String) × Nat) := []

def World.getStore (w : World) (sid : Nat) : StoreObj :=
  w.stores.getD sid default

def World.updStore (w : World) (sid : Nat) (f : StoreObj → StoreObj) : World :=
  { w with stores := w.stores.set sid (f (w.getStore sid)) }

/-- `store => getState(store).value` (the non-recording get used on every
recomputation); `none` models the exception raised on an unknown store. -/
def World.valueOf (w : World) (sid : Nat) : Option JSVal :=
  (w.stores[sid]?).map (·.value)

/-- Evaluate a compute function against the current world with the
non-recording get (`simpleGet`). -/
def evalCompute (w : World) : ComputeFn → Option JSVal
  | .ret v => some v
  | .throwErr => none
  | .read sid k =>
    match w.valueOf sid with
    | some v => evalCompute w (k v)
    | none => none

/-- JS `Set.add`: append if not already present (insertion order kept). -/
def setAdd (l : List Nat) (x : Nat) : List Nat :=
  if x ∈ l then l else l ++ [x]

/-- Evaluate a compute function with the dependency-recording `get` of
`createDerivedStore` (source lines 139-153): each read adds the target to
`dependencies` of `did` and adds `did` to the target's `dependencyMap`
entry, then yields the target's current value; an unknown store throws. -/
def evalComputeTracked (w : World) (did : Nat) : ComputeFn → World × Option JSVal
  | .ret v => (w, some v)
  | .throwErr => (w, none)
  | .read sid k =>
    match w.stores[sid]? with
    | none => (w, none)
    | some s =>
      let w1 := w.updStore did fun d => { d with dependencies := setAdd d.dependencies sid }
      let w2 := w1.updStore sid fun s0 => { s0 with dependents := setAdd s0.dependents did }
      evalComputeTracked w2 did (k s.value)

/-- The trace of store ids read when evaluating `fn` with the
non-recording get against the current world, in read order. -/
def readTrace (w : World) : ComputeFn → List Nat
  | .ret _ => []
  | .throwErr => []
  | .read sid k =>
    match w.valueOf sid with
    | some v => sid :: readTrace w (k v)
    | none => [sid]

/-- `state.listeners.forEach(listener => listener())`. -/
def World.fireListeners (w : World) (sid : Nat) : World :=
  { w with log := w.log ++ (w.getStore sid).listeners.map (Event.listenerFired sid) }

/-- `runAsyncOperation` (source lines 194-224): no-op while a run is in
flight; otherwise mark running, set a fresh loading sentinel, fire
listeners, start `asyncFn` (its reads observe the current world) and
record the outcome as pending until `settleAsync` delivers it. -/
def runAsyncOperation (w : World) (sid : Nat) : World :=
  let s := w.getStore sid
  if s.isRunning then w
  else
    let w1 := w.updStore sid fun s0 => { s0 with isRunning := true }
    let (h2, loadingRef) := heapAlloc w1.heap (Container.obj [("loading", JSVal.bool true)])
    let w2 := { w1 with heap := h2 }
    let w3 := w2.updStore sid fun s0 => { s0 with value := loadingRef }
    let w4 := w3.fireListeners sid
    let outcome := evalCompute w4 s.asyncFn
    w4.updStore sid fun s0 =>
      { s0 with pending := some outcome, invocations := s0.invocations + 1 }

/-- Delivery of a settled `asyncFn` invocation (the `.then`/`.catch`
continuations, source lines 208-223): the result (or a structured error
object) is applied unconditionally, the running flag cleared, listeners
fired.  The error object's message/status defaults are used (the model
does not carry rejection payloads). -/
def settleAsync (w : World) (sid : Nat) : World :=
  match (w.getStore sid).pending with
  | none => w
  | some (some r) =>
    let w1 := w.updStore sid fun s0 =>
      { s0 with value := r, lastComputedValue := r, isRunning := false, pending := none }
    w1.fireListeners sid
  | some none =>
    let (h1, errRef) := heapAlloc w.heap (Container.obj
      [("error", JSVal.bool true), ("message", JSVal.str "An error occurred"),
       ("status", JSVal.str "error")])
    let w1 := { w with heap := h1 }
    let w2 := w1.updStore sid fun s0 =>
      { s0 with value := errRef, lastComputedValue := errRef, isRunning := false,
                pending := none }
    w2.fireListeners sid

/-- The overridden async getter (source lines 230-241): recompute the
target's input value; if it changed by reference, remember it and ask for
a run (deferred if one is already in flight); return the store's value.
A throw inside the target's getter propagates (`none`). -/
def asyncGetterStep (w : World) (sid : Nat) : World × Option JSVal :=
  let s := w.getStore sid
  match evalCompute w (w.getStore s.targetId).getter with
  | none => (w, none)
  | some currentInput =>
    if currentInput = s.lastInputValue then (w, some s.value)
    else
      let w1 := w.updStore sid fun s0 => { s0 with lastInputValue := currentInput }
      let w2 := runAsyncOperation w1 sid
      (w2, some (w2.getStore sid).value)

/-- `computeDerivedValue` (source lines 253-283): evaluate the getter
(the async override for async stores, the user function with the
non-recording get otherwise); on a throw return `lastComputedValue`
unchanged; on an unchanged value (by reference) stop; otherwise store the
new value, fire listeners and recompute every dependent recorded in the
Dependency Map, depth-first (the fold models the source's `forEach` over
`dependencyMap.get(derivedStoreObj)`).  `fuel` bounds the cascade depth
(the source recursion is unbounded). -/
def computeDerivedValue : Nat → World → Nat → World × Option JSVal
  | 0, w, did => (w, some (w.getStore did).lastComputedValue)
  | fuel + 1, w, did =>
    let s := w.getStore did
    let (w1, res) :=
      if s.isAsync then asyncGetterStep w did
      else (w, evalCompute w s.getter)
    match res with
    | none => (w1, some (w1.getStore did).lastComputedValue)
    | some newValue =>
      if newValue = (w1.getStore did).lastComputedValue then (w1, some newValue)
      else
        let w2 := w1.updStore did fun s0 =>
          { s0 with value := newValue, lastComputedValue := newValue }
        let w3 := w2.fireListeners did
        let w4 := (w3.getStore did).dependents.foldl
          (fun wacc dep =>
            if (wacc.getStore dep).isDerived then (computeDerivedValue fuel wacc dep).1
            else wacc) w3
        (w4, some newValue)

/-- The dependent-recompute fold of `computeDerivedValue`, as a named
function for the lemmas below (definitionally equal to the fold in the
body of `computeDerivedValue`). -/
def cascadeList (fuel : Nat) (w : World) (l : List Nat) : World :=
  l.foldl
    (fun wacc dep =>
      if (wacc.getStore dep).isDerived then (computeDerivedValue fuel wacc dep).1
      else wacc) w

/-- The value-or-updater argument of a setter. -/
inductive SetArg where
  | val (v : JSVal)
  | updater (f : JSVal → JSVal)

/-- `typeof nextValueOrUpdater === 'function' ? f(current) : value`. -/
def applySetArg : SetArg → JSVal → JSVal
  | .val v, _ => v
  | .updater f, cur => f cur

/-- The dependent-notification loop of `createSetState` (source lines
103-121): each dependent that is a derived store is recomputed — via the
async getter for async stores, via `computeDerivedValue` otherwise. -/
def notifyDependents (fuel : Nat) (w : World) : List Nat → World
  | [] => w
  | d :: rest =>
    let w1 :=
      if (w.getStore d).isDerived then
        if (w.getStore d).isAsync then (asyncGetterStep w d).1
        else (computeDerivedValue fuel w d).1
      else w
    notifyDependents fuel w1 rest

/-- `createSetState` (source lines 82-123): resolve the current value at
the path, apply an updater if given one, suppress the write when the next
value is reference-equal to the current one, otherwise store the new value
(copy-on-write along a non-empty path), fire listeners and notify
dependent derived stores. -/
def setState (fuel : Nat) (w : World) (sid : Nat) (path : List String) (arg : SetArg) :
    World :=
  let s := w.getStore sid
  let currentValue := if path = [] then s.value else getValueAtPath w.heap s.value path
  let nextValue := applySetArg arg currentValue
  if nextValue = currentValue then w
  else
    let w1 :=
      if path = [] then w.updStore sid fun s0 => { s0 with value := nextValue }
      else
        let (h, nv) := setValueAtPath w.heap s.value path nextValue
        ({ w with heap := h }).updStore sid fun s0 => { s0 with value := nv }
    let w2 := w1.fireListeners sid
    notifyDependents fuel w2 (w2.getStore sid).dependents

/-- `store(initialValue)` for a non-function initial value: a fresh plain
store.  Returns the new store's id. -/
def mkStore (w : World) (v : JSVal) : World × Nat :=
  ({ w with stores := w.stores ++ [{ value := v }] }, w.stores.length)

/-- `createDerivedStore` (source lines 126-170): allocate the derived
store object, then run the initial `computeValue()`: clear the (already
empty) dependency set, evaluate the getter with the dependency-recording
get, keep `lastComputedValue` on a throw. -/
def mkDerived (w : World) (fn : ComputeFn) : World × Nat :=
  let did := w.stores.length
  let w1 := { w with stores := w.stores ++ [{ isDerived := true, getter := fn }] }
  match evalComputeTracked w1 did fn with
  | (w2, some v) =>
    (w2.updStore did fun s0 => { s0 with value := v, lastComputedValue := v }, did)
  | (w2, none) =>
    (w2.updStore did fun s0 => { s0 with value := s0.lastComputedValue }, did)

/-- `createAsyncDerivedStore` (source lines 173-250): allocate the async
store with a loading sentinel, start the initial run, then register the
store as a dependent of its target derived store. -/
def mkAsync (w : World) (targetId : Nat) (fn : ComputeFn) : World × Nat :=
  let sid := w.stores.length
  let (h1, loadingRef) := heapAlloc w.heap (Container.obj [("loading", JSVal.bool true)])
  let w1 := { w with
    heap := h1,
    stores := w.stores ++ [{ value := loadingRef, isDerived := true, isAsync := true,
                             asyncFn := fn, targetId := targetId }] }
  let w2 := runAsyncOperation w1 sid
  let w3 := w2.updStore targetId fun t => { t with dependents := setAdd t.dependents sid }
  (w3, sid)

/-- `path.join('.')`, the proxy-cache key. -/
def pathKey (path : List String) : String := String.intercalate "." path

/-- `createStoreProxy` caching (source lines 286-297, 410-411): return the
cached proxy for `(store, path.join('.'))` if present, else record a fresh
one.  Proxy object identity is modelled by a numeric token (the number of
proxies created before it). -/
def mkProxy (w : World) (sid : Nat) (path : List String) : World × Nat :=
  let key := pathKey path
  match w.proxies.lookup (sid, key) with
  | some i => (w, i)
  | none =>
    ({ w with proxies := w.proxies ++ [((sid, key), w.proxies.length)] },
     w.proxies.length)

/-- The proxy's `get` capability (source lines 306-320): recompute-on-read
for derived stores, a plain path read otherwise. -/
def proxyGet (fuel : Nat) (w : World) (sid : Nat) (path : List String) :
    World × Option JSVal :=
  let s := w.getStore sid
  if s.isDerived then
    computeDerivedValue fuel w sid
  else
    (w, some (if path = [] then s.value else getValueAtPath w.heap s.value path))

/-- The proxy's `set` capability (source lines 322-333): derived stores
are read-only (the call throws before touching any state); otherwise the
write goes through `createSetState`. -/
def proxySet (fuel : Nat) (w : World) (sid : Nat) (path : List String) (arg : SetArg) :
    World × Except String Unit :=
  if (w.getStore sid).isDerived then
    (w, .error "Cannot set value on derived store. Derived stores are read-only.")
  else
    (setState fuel w sid path arg, .ok ())

/-- The property names intercepted by the proxy before the path
fall-through (source lines 300-401). -/
def specialProps : List String :=
  ["_path", "_obj", "value", "listeners", "isDerived", "get", "set", "local",
   "session", "derive", "async"]

/-- The proxy's path fall-through (source lines 403-406): a non-special
property on a non-derived store yields the child proxy for the extended
path; on a derived store it throws (`none`). -/
def proxyChild (w : World) (sid : Nat) (path : List String) (prop : String) :
    Option (World × Nat) :=
  if prop ∈ specialProps then none
  else if (w.getStore sid).isDerived then none
  else some (mkProxy w sid (path ++ [prop]))

/-! ## Basic state lemmas -/

theorem getStore_updStore_self (w : World) (did : Nat) (f : StoreObj → StoreObj)
    (h : did < w.stores.length) :
    (w.updStore did f).getStore did = f (w.getStore did) := by
  simp [World.updStore, World.getStore, List.getD_eq_getElem?_getD,
    List.getElem?_set_self, h]

theorem updStore_of_oob (w : World) (did : Nat) (f : StoreObj → StoreObj)
    (h : w.stores.length ≤ did) :
    w.updStore did f = w := by
  simp [World.updStore, List.set_eq_of_length_le h]

theorem getStore_updStore_ne (w : World) (did sid : Nat) (f : StoreObj → StoreObj)
    (h : sid ≠ did) :
    (w.updStore did f).getStore sid = w.getStore sid := by
  simp [World.updStore, World.getStore, List.getD_eq_getElem?_getD,
    List.getElem?_set_ne (Ne.symm h)]

theorem getStore_fireListeners (w : World) (sid tid : Nat) :
    ((w.fireListeners sid).getStore tid) = w.getStore tid := rfl

theorem length_updStore (w : World) (did : Nat) (f : StoreObj → StoreObj) :
    (w.updStore did f).stores.length = w.stores.length := by
  simp [World.updStore]

/-- The store fields that are never written by the mutation/notification
pipeline (they are fixed once a store has been created). -/
def StoreObj.fixedPart (s : StoreObj) :
    List Nat × Bool × Bool × List Nat × List Nat × Nat × ComputeFn × ComputeFn :=
  (s.listeners, s.isDerived, s.isAsync, s.dependencies, s.dependents, s.targetId,
   s.getter, s.asyncFn)

/-- Frame facts common to every step of the update/notification pipeline
(everything except `settleAsync`): creation-time fields are untouched, a
store whose run is in flight keeps its flag, pending outcome and
invocation count, the heap and log only grow, the proxy cache and the
store count are unchanged. -/
structure WFrame (w w' : World) : Prop where
  fixed : ∀ sid, (w'.getStore sid).fixedPart = (w.getStore sid).fixedPart
  running : ∀ sid, (w.getStore sid).isRunning = true →
    (w'.getStore sid).isRunning = true ∧
    (w'.getStore sid).invocations = (w.getStore sid).invocations ∧
    (w'.getStore sid).pending = (w.getStore sid).pending
  heapExt : ∃ t, w'.heap = w.heap ++ t
  logExt : ∃ t, w'.log = w.log ++ t
  proxiesEq : w'.proxies = w.proxies
  lenEq : w'.stores.length = w.stores.length

theorem WFrame.rfl (w : World) : WFrame w w :=
  ⟨fun _ => Eq.refl _, fun _ h => ⟨h, Eq.refl _, Eq.refl _⟩, ⟨[], by simp⟩, ⟨[], by simp⟩,
   Eq.refl _, Eq.refl _⟩

theorem WFrame.trans {w1 w2 w3 : World} (a : WFrame w1 w2) (b : WFrame w2 w3) :
    WFrame w1 w3 := by
  refine ⟨fun sid => (b.fixed sid).trans (a.fixed sid), fun sid h => ?_, ?_, ?_,
    b.proxiesEq.trans a.proxiesEq, b.lenEq.trans a.lenEq⟩
  · obtain ⟨h1, h2, h3⟩ := a.running sid h
    obtain ⟨g1, g2, g3⟩ := b.running sid h1
    exact ⟨g1, g2.trans h2, g3.trans h3⟩
  · obtain ⟨t1, e1⟩ := a.heapExt
    obtain ⟨t2, e2⟩ := b.heapExt
    exact ⟨t1 ++ t2, by simp [e2, e1]⟩
  · obtain ⟨t1, e1⟩ := a.logExt
    obtain ⟨t2, e2⟩ := b.logExt
    exact ⟨t1 ++ t2, by simp [e2, e1]⟩

/-- Field-level frame facts for `updStore` with a function that only
touches volatile fields. -/
theorem wframe_updStore (w : World) (did : Nat) (f : StoreObj → StoreObj)
    (hfix : ∀ s, (f s).fixedPart = s.fixedPart)
    (hrun : ∀ s, s.isRunning = true →
      (f s).isRunning = true ∧ (f s).invocations = s.invocations ∧
      (f s).pending = s.pending) :
    WFrame w (w.updStore did f) := by
  by_cases h : did < w.stores.length
  · refine ⟨fun sid => ?_, fun sid hr => ?_, ⟨[], by simp [World.updStore]⟩,
      ⟨[], by simp [World.updStore]⟩, by simp [World.updStore], length_updStore ..⟩
    · by_cases hs : sid = did
      · subst hs; rw [getStore_updStore_self _ _ _ h]; exact hfix _
      · rw [getStore_updStore_ne _ _ _ _ hs]
    · by_cases hs : sid = did
      · subst hs; rw [getStore_updStore_self _ _ _ h]; exact hrun _ hr
      · rw [getStore_updStore_ne _ _ _ _ hs]; exact ⟨hr, Eq.refl _, Eq.refl _⟩
  · rw [updStore_of_oob _ _ _ (Nat.le_of_not_lt h)]; exact WFrame.rfl w

theorem wframe_fireListeners (w : World) (sid : Nat) :
    WFrame w (w.fireListeners sid) :=
  ⟨fun _ => Eq.refl _, fun _ h => ⟨h, Eq.refl _, Eq.refl _⟩, ⟨[], by simp [World.fireListeners]⟩,
   ⟨_, Eq.refl _⟩, Eq.refl _, Eq.refl _⟩

theorem wframe_heapAppend (w : World) (t : Heap) :
    WFrame w { w with heap := w.heap ++ t } :=
  ⟨fun _ => Eq.refl _, fun _ h => ⟨h, Eq.refl _, Eq.refl _⟩, ⟨t, Eq.refl _⟩,
   ⟨[], by simp⟩, Eq.refl _, Eq.refl _⟩

@[simp] theorem getStore_setHeap (w : World) (h : Heap) (tid : Nat) :
    (({ w with heap := h } : World)).getStore tid = w.getStore tid := rfl

@[simp] theorem heap_updStore (w : World) (did : Nat) (f : StoreObj → StoreObj) :
    (w.updStore did f).heap = w.heap := rfl

@[simp] theorem log_updStore (w : World) (did : Nat) (f : StoreObj → StoreObj) :
    (w.updStore did f).log = w.log := rfl

@[simp] theorem proxies_updStore (w : World) (did : Nat) (f : StoreObj → StoreObj) :
    (w.updStore did f).proxies = w.proxies := rfl

@[simp] theorem heap_fireListeners (w : World) (sid : Nat) :
    (w.fireListeners sid).heap = w.heap := rfl

@[simp] theorem proxies_fireListeners (w : World) (sid : Nat) :
    (w.fireListeners sid).proxies = w.proxies := rfl

@[simp] theorem stores_fireListeners (w : World) (sid : Nat) :
    (w.fireListeners sid).stores = w.stores := rfl

@[simp] theorem stores_setHeap (w : World) (h : Heap) :
    (({ w with heap := h } : World)).stores = w.stores := rfl

theorem runAsyncOperation_getStore_ne (w : World) (sid tid : Nat) (h : tid ≠ sid) :
    (runAsyncOperation w sid).getStore tid = w.getStore tid := by
  unfold runAsyncOperation
  cases hb : (w.getStore sid).isRunning
  · simp only [hb, Bool.false_eq_true, if_false, heapAlloc]
    rw [getStore_updStore_ne _ _ _ _ h, getStore_fireListeners,
      getStore_updStore_ne _ _ _ _ h, getStore_setHeap,
      getStore_updStore_ne _ _ _ _ h]
  · simp [hb]

theorem getStore_updStore_cases (w : World) (did : Nat) (f : StoreObj → StoreObj) :
    (w.updStore did f).getStore did =
      if did < w.stores.length then f (w.getStore did) else w.getStore did := by
  by_cases h : did < w.stores.length
  · rw [if_pos h, getStore_updStore_self _ _ _ h]
  · rw [if_neg h, updStore_of_oob _ _ _ (Nat.le_of_not_lt h)]

theorem fixedPart_updStore (w : World) (did tid : Nat) (f : StoreObj → StoreObj)
    (hf : ∀ s, (f s).fixedPart = s.fixedPart) :
    ((w.updStore did f).getStore tid).fixedPart = (w.getStore tid).fixedPart := by
  by_cases h : tid = did
  · subst h; rw [getStore_updStore_cases]; split
    · exact hf _
    · rfl
  · rw [getStore_updStore_ne _ _ _ _ h]

theorem runAsyncOperation_of_running (w : World) (sid : Nat)
    (hb : (w.getStore sid).isRunning = true) :
    runAsyncOperation w sid = w := by
  unfold runAsyncOperation
  simp [hb]

theorem runAsyncOperation_start (w : World) (sid : Nat)
    (hr : (w.getStore sid).isRunning = false) (hlt : sid < w.stores.length) :
    ((runAsyncOperation w sid).getStore sid).isRunning = true ∧
    ((runAsyncOperation w sid).getStore sid).invocations =
      (w.getStore sid).invocations + 1 ∧
    ((runAsyncOperation w sid).getStore sid).lastInputValue =
      (w.getStore sid).lastInputValue := by
  unfold runAsyncOperation
  simp only [hr, Bool.false_eq_true, if_false, heapAlloc]
  rw [getStore_updStore_cases, getStore_fireListeners, getStore_updStore_cases,
    getStore_setHeap, getStore_updStore_cases]
  simp only [length_updStore, stores_setHeap, stores_fireListeners]
  simp [hlt]

theorem heap_runAsyncOperation (w : World) (sid : Nat) :
    ∃ t, (runAsyncOperation w sid).heap = w.heap ++ t := by
  cases hb : (w.getStore sid).isRunning
  · unfold runAsyncOperation
    simp only [hb, Bool.false_eq_true, if_false, heapAlloc]
    exact ⟨_, Eq.refl _⟩
  · rw [runAsyncOperation_of_running _ _ hb]; exact ⟨[], by simp⟩

theorem log_runAsyncOperation (w : World) (sid : Nat) :
    ∃ t, (runAsyncOperation w sid).log = w.log ++ t := by
  cases hb : (w.getStore sid).isRunning
  · unfold runAsyncOperation
    simp only [hb, Bool.false_eq_true, if_false, heapAlloc]
    exact ⟨_, Eq.refl _⟩
  · rw [runAsyncOperation_of_running _ _ hb]; exact ⟨[], by simp⟩

theorem proxies_runAsyncOperation (w : World) (sid : Nat) :
    (runAsyncOperation w sid).proxies = w.proxies := by
  cases hb : (w.getStore sid).isRunning
  · unfold runAsyncOperation
    simp only [hb, Bool.false_eq_true, if_false, heapAlloc]
    rfl
  · rw [runAsyncOperation_of_running _ _ hb]

theorem length_runAsyncOperation (w : World) (sid : Nat) :
    (runAsyncOperation w sid).stores.length = w.stores.length := by
  cases hb : (w.getStore sid).isRunning
  · unfold runAsyncOperation
    simp only [hb, Bool.false_eq_true, if_false, heapAlloc]
    simp [World.updStore, World.fireListeners]
  · rw [runAsyncOperation_of_running _ _ hb]

theorem fixedPart_runAsyncOperation (w : World) (sid tid : Nat) :
    ((runAsyncOperation w sid).getStore tid).fixedPart = (w.getStore tid).fixedPart := by
  cases hb : (w.getStore sid).isRunning
  · by_cases h : tid = sid
    · subst h
      unfold runAsyncOperation
      simp only [hb, Bool.false_eq_true, if_false, heapAlloc]
      rw [getStore_updStore_cases, getStore_fireListeners, getStore_updStore_cases,
        getStore_setHeap, getStore_updStore_cases]
      simp only [length_updStore, stores_setHeap, stores_fireListeners]
      by_cases hlt : tid < w.stores.length
      · simp [hlt, StoreObj.fixedPart]
      · simp [hlt, StoreObj.fixedPart]
    · rw [runAsyncOperation_getStore_ne _ _ _ h]
  · rw [runAsyncOperation_of_running _ _ hb]

theorem wframe_runAsyncOperation (w : World) (sid : Nat) :
    WFrame w (runAsyncOperation w sid) := by
  refine ⟨fun tid => fixedPart_runAsyncOperation w sid tid, fun tid hr => ?_,
    heap_runAsyncOperation w sid, log_runAsyncOperation w sid,
    proxies_runAsyncOperation w sid, length_runAsyncOperation w sid⟩
  by_cases h : tid = sid
  · subst h
    rw [runAsyncOperation_of_running _ _ hr]
    exact ⟨hr, Eq.refl _, Eq.refl _⟩
  · rw [runAsyncOperation_getStore_ne _ _ _ h]
    exact ⟨hr, Eq.refl _, Eq.refl _⟩

theorem asyncGetterStep_getStore_ne (w : World) (sid tid : Nat) (h : tid ≠ sid) :
    ((asyncGetterStep w sid).1).getStore tid = w.getStore tid := by
  simp only [asyncGetterStep]
  cases hres : evalCompute w (w.getStore (w.getStore sid).targetId).getter with
  | none => rfl
  | some ci =>
    dsimp only
    by_cases hc : ci = (w.getStore sid).lastInputValue
    · rw [if_pos hc]
    · rw [if_neg hc]
      dsimp only
      rw [runAsyncOperation_getStore_ne _ _ _ h, getStore_updStore_ne _ _ _ _ h]

theorem wframe_asyncGetterStep (w : World) (sid : Nat) :
    WFrame w (asyncGetterStep w sid).1 := by
  simp only [asyncGetterStep]
  cases hres : evalCompute w (w.getStore (w.getStore sid).targetId).getter with
  | none => exact WFrame.rfl w
  | some ci =>
    dsimp only
    by_cases hc : ci = (w.getStore sid).lastInputValue
    · rw [if_pos hc]
      exact WFrame.rfl w
    · rw [if_neg hc]
      dsimp only
      exact WFrame.trans
        (wframe_updStore w sid (fun s0 => { s0 with lastInputValue := ci })
          (fun s => rfl) (fun s h => ⟨h, Eq.refl _, Eq.refl _⟩))
        (wframe_runAsyncOperation _ sid)

theorem wframe_cascadeList_of (fuel : Nat)
    (h : ∀ w did, WFrame w (computeDerivedValue fuel w did).1) :
    ∀ w l, WFrame w (cascadeList fuel w l) := by
  intro w l
  induction l generalizing w with
  | nil => exact WFrame.rfl w
  | cons d rest ihl =>
    simp only [cascadeList, List.foldl_cons]
    by_cases hd : (w.getStore d).isDerived
    · simp only [hd, if_true]
      exact WFrame.trans (h w d) (ihl _)
    · simp only [hd, Bool.false_eq_true, if_false]
      exact ihl w

theorem wframe_computeDerivedValue :
    ∀ fuel w did, WFrame w (computeDerivedValue fuel w did).1 := by
  intro fuel
  induction fuel with
  | zero => intro w did; simp only [computeDerivedValue]; exact WFrame.rfl w
  | succ n ih =>
    intro w did
    have hstep : WFrame w
        (if (w.getStore did).isAsync then asyncGetterStep w did
         else (w, evalCompute w (w.getStore did).getter)).1 := by
      by_cases ha : (w.getStore did).isAsync
      · simp only [ha, if_true]; exact wframe_asyncGetterStep w did
      · simp only [ha, if_false]; exact WFrame.rfl w
    show WFrame w (computeDerivedValue (n + 1) w did).1
    rw [computeDerivedValue]
    cases hpair : (if (w.getStore did).isAsync then asyncGetterStep w did
        else (w, evalCompute w (w.getStore did).getter)) with
    | mk w1 res =>
      rw [hpair] at hstep
      cases res with
      | none => exact hstep
      | some newValue =>
        dsimp only
        by_cases heq : newValue = (w1.getStore did).lastComputedValue
        · rw [if_pos heq]
          exact hstep
        · rw [if_neg heq]
          dsimp only
          refine WFrame.trans hstep (WFrame.trans ?_ (WFrame.trans
            (wframe_fireListeners _ did) (wframe_cascadeList_of n ih _ _)))
          exact wframe_updStore _ did
            (fun s0 => { s0 with value := newValue, lastComputedValue := newValue })
            (fun s => rfl) (fun s h => ⟨h, Eq.refl _, Eq.refl _⟩)

theorem wframe_cascadeList (fuel : Nat) (w : World) (l : List Nat) :
    WFrame w (cascadeList fuel w l) :=
  wframe_cascadeList_of fuel (wframe_computeDerivedValue fuel) w l

theorem wframe_notifyDependents (fuel : Nat) (w : World) (l : List Nat) :
    WFrame w (notifyDependents fuel w l) := by
  induction l generalizing w with
  | nil => exact WFrame.rfl w
  | cons d rest ihl =>
    show WFrame w (notifyDependents fuel _ rest)
    by_cases hd : (w.getStore d).isDerived
    · simp only [hd, if_true]
      by_cases ha : (w.getStore d).isAsync
      · simp only [ha, if_true]
        exact WFrame.trans (wframe_asyncGetterStep w d) (ihl _)
      · simp only [ha, if_false]
        exact WFrame.trans (wframe_computeDerivedValue fuel w d) (ihl _)
    · simp only [hd, if_false]
      exact ihl w

/-- `setValueAtPath` only ever appends to the heap. -/
theorem setValueAtPath_heap_ext (path : List String) :
    ∀ (h : Heap) (obj value : JSVal), ∃ t, (setValueAtPath h obj path value).1 = h ++ t := by
  induction path with
  | nil => intro h obj value; exact ⟨[], by simp [setValueAtPath]⟩
  | cons k rest ih =>
    intro h obj value
    cases rest with
    | nil =>
      cases hc : heapContainer h obj with
      | none => exact ⟨[], by simp [setValueAtPath, hc]⟩
      | some c => exact ⟨[c.copy.setKey k value], by simp [setValueAtPath, hc, heapAlloc]⟩
    | cons k2 rest2 =>
      cases hc : heapContainer h obj with
      | none => exact ⟨[], by simp [setValueAtPath, hc]⟩
      | some c =>
        rw [setValueAtPath]
        simp only [hc, heapAlloc]
        by_cases hf : isFalsy (c.getKey k)
        · simp only [hf, if_true]
          obtain ⟨t, ht⟩ := ih (h ++ [Container.obj []]) (JSVal.ref h.length) value
          cases hsv : setValueAtPath (h ++ [Container.obj []]) (JSVal.ref h.length)
              (k2 :: rest2) value with
          | mk h2 nc =>
            rw [hsv] at ht
            dsimp only at ht
            exact ⟨([Container.obj []] ++ t) ++ [c.copy.setKey k nc], by rw [ht]; simp⟩
        · simp only [hf, Bool.false_eq_true, if_false]
          obtain ⟨t, ht⟩ := ih h (c.getKey k) value
          cases hsv : setValueAtPath h (c.getKey k) (k2 :: rest2) value with
          | mk h2 nc =>
            rw [hsv] at ht
            dsimp only at ht
            exact ⟨t ++ [c.copy.setKey k nc], by rw [ht]; simp⟩

/-- Frame facts for a whole `createSetState` call: it writes the target
store's value, appends to the heap and log, and its dependent cascade
falls under the cascade frame. -/
theorem wframe_setState (fuel : Nat) (w : World) (sid : Nat) (path : List String)
    (arg : SetArg) : WFrame w (setState fuel w sid path arg) := by
  unfold setState
  by_cases hsup : applySetArg arg (if path = [] then (w.getStore sid).value
      else getValueAtPath w.heap (w.getStore sid).value path) =
      (if path = [] then (w.getStore sid).value
       else getValueAtPath w.heap (w.getStore sid).value path)
  · simp only [hsup, if_true]
    exact WFrame.rfl w
  · simp only [hsup, if_false]
    have base : WFrame w
        (if path = []
         then w.updStore sid fun s0 =>
           { s0 with value := applySetArg arg (if path = [] then (w.getStore sid).value
               else getValueAtPath w.heap (w.getStore sid).value path) }
         else
           let p := setValueAtPath w.heap (w.getStore sid).value path
             (applySetArg arg (if path = [] then (w.getStore sid).value
               else getValueAtPath w.heap (w.getStore sid).value path))
           ({ w with heap := p.1 }).updStore sid fun s0 => { s0 with value := p.2 }) := by
      by_cases hp : path = []
      · simp only [hp, if_true]
        exact wframe_updStore _ _ _ (fun s => rfl) (fun s h => ⟨h, Eq.refl _, Eq.refl _⟩)
      · simp only [hp, if_false]
        obtain ⟨t, ht⟩ := setValueAtPath_heap_ext path w.heap (w.getStore sid).value
          (applySetArg arg (getValueAtPath w.heap (w.getStore sid).value path))
        refine WFrame.trans ?_ (wframe_updStore _ _ _ ?_ ?_)
        · rw [ht]
          exact wframe_heapAppend _ _
        · intro s; rfl
        · intro s h; exact ⟨h, Eq.refl _, Eq.refl _⟩
    refine WFrame.trans base (WFrame.trans (wframe_fireListeners _ _)
      (wframe_notifyDependents _ _ _))

/-- The dependent cascade never rewrites a non-derived store (the
`derivedStoreMap.has` guard filters every recursive target). -/
theorem computeDerivedValue_untouched :
    ∀ fuel w did sid, (w.getStore sid).isDerived = false → sid ≠ did →
      ((computeDerivedValue fuel w did).1).getStore sid = w.getStore sid := by
  intro fuel
  induction fuel with
  | zero => intro w did sid _ _; simp only [computeDerivedValue]
  | succ n ih =>
    intro w did sid hnd hne
    have hcasc : ∀ (l : List Nat) (w : World), (w.getStore sid).isDerived = false →
        (cascadeList n w l).getStore sid = w.getStore sid := by
      intro l
      induction l with
      | nil => intro w _; rfl
      | cons d rest ihl =>
        intro w hw
        simp only [cascadeList, List.foldl_cons]
        by_cases hd : (w.getStore d).isDerived
        · have hned : sid ≠ d := by
            rintro rfl; rw [hw] at hd; exact absurd hd (by simp)
          simp only [hd, if_true]
          have hu := ih w d sid hw hned
          exact (ihl _ (by rw [hu]; exact hw)).trans hu
        · simp only [hd, Bool.false_eq_true, if_false]
          exact ihl w hw
    rw [computeDerivedValue]
    have hstep1 : (if (w.getStore did).isAsync then asyncGetterStep w did
        else (w, evalCompute w (w.getStore did).getter)).1.getStore sid =
          w.getStore sid := by
      by_cases ha : (w.getStore did).isAsync
      · simp only [ha, if_true]; exact asyncGetterStep_getStore_ne w did sid hne
      · simp only [ha, Bool.false_eq_true, if_false]
    cases hpair : (if (w.getStore did).isAsync then asyncGetterStep w did
        else (w, evalCompute w (w.getStore did).getter)) with
    | mk w1 res =>
      rw [hpair] at hstep1
      cases res with
      | none => exact hstep1
      | some newValue =>
        dsimp only
        by_cases heq : newValue = (w1.getStore did).lastComputedValue
        · rw [if_pos heq]; exact hstep1
        · rw [if_neg heq]
          dsimp only
          have h3 : (((w1.updStore did fun s0 =>
              { s0 with value := newValue, lastComputedValue := newValue }).fireListeners
              did).getStore sid) = w.getStore sid := by
            rw [getStore_fireListeners, getStore_updStore_ne _ _ _ _ hne]
            exact hstep1
          exact (hcasc _ _ (by rw [h3]; exact hnd)).trans h3

theorem notifyDependents_untouched (fuel : Nat) (l : List Nat) :
    ∀ (w : World) (sid : Nat), (w.getStore sid).isDerived = false →
      (notifyDependents fuel w l).getStore sid = w.getStore sid := by
  induction l with
  | nil => intro w sid _; rfl
  | cons d rest ihl =>
    intro w sid hnd
    simp only [notifyDependents]
    by_cases hd : (w.getStore d).isDerived
    · have hne : sid ≠ d := by
        rintro rfl; rw [hnd] at hd; exact absurd hd (by simp)
      simp only [hd, if_true]
      by_cases ha : (w.getStore d).isAsync
      · simp only [ha, if_true]
        have hu := asyncGetterStep_getStore_ne w d sid hne
        exact (ihl _ sid (by rw [hu]; exact hnd)).trans hu
      · simp only [ha, Bool.false_eq_true, if_false]
        have hu := computeDerivedValue_untouched fuel w d sid hnd hne
        exact (ihl _ sid (by rw [hu]; exact hnd)).trans hu
    · simp only [hd, Bool.false_eq_true, if_false]
      exact ihl w sid hnd

/-- Unpacking equality of the creation-time fields. -/
theorem fixedPart_parts {s s' : StoreObj} (h : s.fixedPart = s'.fixedPart) :
    s.listeners = s'.listeners ∧ s.isDerived = s'.isDerived ∧ s.isAsync = s'.isAsync ∧
    s.dependencies = s'.dependencies ∧ s.dependents = s'.dependents ∧
    s.targetId = s'.targetId ∧ s.getter = s'.getter ∧ s.asyncFn = s'.asyncFn := by
  simp only [StoreObj.fixedPart, Prod.mk.injEq] at h
  tauto

/-! ## C5: no-op suppression -/

/-- **C5**: a write whose next value is reference-equal (`Object.is`) to
the value currently read at `(store, path)` — whether passed directly or
returned by an updater — performs no mutation and fires zero listeners:
the resulting world is the original one, unchanged in every component. -/
theorem c5_noop_write_suppressed (fuel : Nat) (w : World) (sid : Nat)
    (path : List String) (arg : SetArg)
    (h : applySetArg arg (if path = [] then (w.getStore sid).value
           else getValueAtPath w.heap (w.getStore sid).value path) =
         (if path = [] then (w.getStore sid).value
           else getValueAtPath w.heap (w.getStore sid).value path)) :
    setState fuel w sid path arg = w := by
  unfold setState
  simp only [h, if_true]

def c5W : World := (mkStore {} (.num 3)).1

/-- Witness for C5: writing the reference-equal value `3` (and an updater
returning the current value) to a concrete store changes nothing. -/
theorem c5_witness :
    setState 5 c5W 0 [] (.val (.num 3)) = c5W ∧
    setState 5 c5W 0 [] (.updater fun v => v) = c5W :=
  ⟨c5_noop_write_suppressed 5 c5W 0 [] (.val (.num 3)) (by decide),
   c5_noop_write_suppressed 5 c5W 0 [] (.updater fun v => v) rfl⟩

/-! ## C7: derived stores are read-only -/

/-- **C7**: calling `set` on a handle of a derived store (async derived
stores included, since they also carry `isDerived`) throws the read-only
error to the caller and performs no state change at all: the value,
`lastComputedValue` and listener set of every store are as before. -/
theorem c7_set_on_derived_throws (fuel : Nat) (w : World) (sid : Nat)
    (path : List String) (arg : SetArg)
    (h : (w.getStore sid).isDerived = true) :
    proxySet fuel w sid path arg =
      (w, Except.error
        "Cannot set value on derived store. Derived stores are read-only.") := by
  unfold proxySet
  simp only [h, if_true]

def c7W : World := (mkDerived (mkStore {} (.num 1)).1
  (.read 0 fun v => .ret v)).1

/-- Witness for C7 at a concrete derived store (id 1 over base store 0). -/
theorem c7_witness :
    (c7W.getStore 1).isDerived = true ∧
    proxySet 3 c7W 1 [] (.val (.num 9)) =
      (c7W, Except.error
        "Cannot set value on derived store. Derived stores are read-only.") :=
  ⟨by decide, c7_set_on_derived_throws 3 c7W 1 [] (.val (.num 9)) (by decide)⟩

/-! ## C8: throwing compute functions degrade to the last good value -/

/-- **C8**: if a (synchronous) derived store's compute function throws
during a recomputation, the error is not propagated — the recompute call
returns normally with `lastComputedValue` — and absolutely nothing
changes: the store keeps its last successfully computed value, no
listeners fire and no cascade to dependents runs (the world is returned
unchanged). -/
theorem c8_compute_throw_retains_value (fuel : Nat) (w : World) (did : Nat)
    (hsync : (w.getStore did).isAsync = false)
    (hthrow : evalCompute w (w.getStore did).getter = none) :
    computeDerivedValue fuel w did = (w, some (w.getStore did).lastComputedValue) := by
  cases fuel with
  | zero => rfl
  | succ n => simp [computeDerivedValue, hsync, hthrow]

/-- The concrete scenario of the claim: a derived store that doubles its
input but throws for inputs above 5. -/
def c8fn : ComputeFn :=
  .read 0 fun v =>
    match v with
    | .num n => if n ≤ 5 then .ret (.num (2 * n)) else .throwErr
    | _ => .throwErr

def c8W : World := (mkDerived (mkStore {} (.num 5)).1 c8fn).1

def c8After : World := setState 3 c8W 0 [] (.val (.num 10))

/-- Witness for C8: with the base moved from 5 to 10, the derived store's
compute function throws; recomputation returns the value computed at
input 5 (namely 10 = 2·5) and leaves the world unchanged, and indeed the
derived store still holds that value after the mutation. -/
theorem c8_witness :
    (c8After.getStore 1).isAsync = false ∧
    evalCompute c8After (c8After.getStore 1).getter = none ∧
    computeDerivedValue 3 c8After 1 =
      (c8After, some ((c8After.getStore 1).lastComputedValue)) ∧
    (c8After.getStore 0).value = .num 10 ∧
    (c8After.getStore 1).value = .num 10 :=
  ⟨by decide, by decide,
   c8_compute_throw_retains_value 3 c8After 1 (by decide) (by decide),
   by decide, by decide⟩

/-! ## C2: the dependency set is not rebuilt on recomputation -/

/-- The conditional compute function of the counterexample: it reads
store 0, and only when store 0 is falsy also reads store 1. -/
def c2fn : ComputeFn :=
  .read 0 fun v => if isFalsy v then .read 1 fun u => .ret u else .ret (.num 1)

/-- Store 0 (`true`), store 1 (`7`), and the derived store 2 over them. -/
def c2W : World := (mkDerived (mkStore (mkStore {} (.bool true)).1 (.num 7)).1 c2fn).1

/-- The world after mutating store 0 to `false`, which triggers a
recomputation of the derived store during which its compute function
reads both store 0 and store 1. -/
def c2After : World := setState 3 c2W 0 [] (.val (.bool false))

/-- **C2 (counterexample)**: after the mutation, the recomputation that
just ran evaluated the compute function against the current values and
read stores 0 *and* 1 (the derived value 7 proves store 1's value was
used), yet the dependency set still holds exactly the creation-time read
`[0]` — it was neither cleared nor repopulated — and the transpose
Dependency Map gained no edge from store 1.  The dependency set did not
grow at the conditional read, contradicting the claim. -/
theorem c2_counterexample :
    readTrace c2After c2fn = [0, 1] ∧
    (c2After.getStore 2).value = .num 7 ∧
    (c2After.getStore 2).dependencies = [0] ∧
    (c2After.getStore 1).dependents = [] := by
  refine ⟨by decide, by decide, by decide, by decide⟩


/-! ## C10: writing through a path on a primitive root replaces the root -/

theorem heapContainer_nonobject (h : Heap) (obj : JSVal)
    (hobj : isObjectVal obj = false) : heapContainer h obj = none := by
  cases obj <;> first | rfl | simp [isObjectVal] at hobj

/-- On a non-object root, `setValueAtPath` returns the new value itself
without allocating: the root is replaced wholesale. -/
theorem setValueAtPath_nonobject (h : Heap) (obj : JSVal) (path : List String)
    (v : JSVal) (hobj : isObjectVal obj = false) :
    setValueAtPath h obj path v = (h, v) := by
  cases path with
  | nil => rfl
  | cons k rest =>
    cases rest with
    | nil => simp [setValueAtPath, heapContainer_nonobject h obj hobj]
    | cons k2 rest2 => simp [setValueAtPath, heapContainer_nonobject h obj hobj]

theorem lookupKey_nonobject (h : Heap) (v : JSVal) (k : String)
    (hv : isObjectVal v = false) (hs : isStringVal v = false) :
    lookupKey h v k = .undef := by
  cases v with
  | ref a => exact absurd hv (by simp [isObjectVal])
  | str s => exact absurd hs (by simp [isStringVal])
  | undef => rfl
  | null => rfl
  | bool b => rfl
  | num n => rfl

theorem getValueAtPath_nonobject (h : Heap) (v : JSVal) (path : List String)
    (hv : isObjectVal v = false) (hs : isStringVal v = false) (hpath : path ≠ []) :
    getValueAtPath h v path = .undef := by
  cases path with
  | nil => exact absurd rfl hpath
  | cons k rest =>
    have : getValueAtPath h v (k :: rest) = getValueAtPath h (lookupKey h v k) rest := rfl
    rw [this, lookupKey_nonobject h v k hv hs]
    clear this hpath
    induction rest with
    | nil => rfl
    | cons k2 rest2 ih => exact ih

/-- The store of the C10 counterexample: it holds the primitive `5`. -/
def c10cexW : World := (mkStore {} (.num 5)).1

/-- **C10 (counterexample)**: the claim says a read at `p` after the
replacement "returns undefined unless v itself is a container with that
key".  Writing the string `"abc"` at `p = ["length"]` on a store holding
the primitive `5` replaces the root wholesale as claimed, but the
subsequent read at `p` returns `3`, not `undefined`, although `"abc"` is
not a container: `current?.[key]` short-circuits only on nullish values,
and a primitive string exposes `length` (and character indices), so
`"abc"?.["length"] === 3`. -/
theorem c10_counterexample :
    JSVal.str "abc" ≠ getValueAtPath c10cexW.heap (c10cexW.getStore 0).value ["length"] ∧
    isObjectVal (JSVal.str "abc") = false ∧
    ((setState 3 c10cexW 0 ["length"] (.val (.str "abc"))).getStore 0).value =
      .str "abc" ∧
    getValueAtPath (setState 3 c10cexW 0 ["length"] (.val (.str "abc"))).heap
      (.str "abc") ["length"] = .num 3 := by
  decide

/-- **C10 (amended)**: writing a fresh value `v` through a non-empty path
on a non-derived store whose root value is not an object replaces the
entire root value by `v` itself — no container is created around `v` — so
the root afterwards reads as `v`; and reading back through the path gives
`undefined` whenever `v` is neither a container nor a primitive string
(strings expose `length` and character-index properties through
`current?.[key]`, as the counterexample shows). -/
theorem c10_nonobject_root_replaced (fuel : Nat) (w : World) (sid : Nat)
    (path : List String) (v : JSVal)
    (hlt : sid < w.stores.length)
    (hnd : (w.getStore sid).isDerived = false)
    (hobj : isObjectVal (w.getStore sid).value = false)
    (hpath : path ≠ [])
    (hneq : v ≠ getValueAtPath w.heap (w.getStore sid).value path) :
    ((setState fuel w sid path (.val v)).getStore sid).value = v ∧
    (isObjectVal v = false → isStringVal v = false →
      getValueAtPath (setState fuel w sid path (.val v)).heap v path = .undef) := by
  constructor
  · unfold setState
    simp only [hpath, if_false, applySetArg, hneq,
      setValueAtPath_nonobject w.heap (w.getStore sid).value path v hobj]
    rw [notifyDependents_untouched]
    · rw [getStore_fireListeners, getStore_updStore_self]
      simpa using hlt
    · rw [getStore_fireListeners, getStore_updStore_self]
      · exact hnd
      · simpa using hlt
  · intro hv hs
    exact getValueAtPath_nonobject _ v path hv hs hpath

def c10W : World := (mkStore {} (.num 5)).1

/-- Witness for C10: writing 9 at path x of a store holding the number 5
replaces the whole root by 9, and the path then reads as undefined. -/
theorem c10_witness :
    (JSVal.num 9 ≠ getValueAtPath c10W.heap (c10W.getStore 0).value ["x"]) ∧
    ((setState 3 c10W 0 ["x"] (.val (.num 9))).getStore 0).value = .num 9 ∧
    getValueAtPath (setState 3 c10W 0 ["x"] (.val (.num 9))).heap (.num 9) ["x"]
      = .undef :=
  ⟨by decide,
   (c10_nonobject_root_replaced 3 c10W 0 ["x"] (.num 9) (by decide) (by decide)
     (by decide) (by decide) (by decide)).1,
   (c10_nonobject_root_replaced 3 c10W 0 ["x"] (.num 9) (by decide) (by decide)
     (by decide) (by decide) (by decide)).2 (by decide) (by decide)⟩


/-! ## C9: handle identity -/

theorem lookup_append_some {α β : Type} [BEq α] (k : α) (v : β) :
    ∀ (l t : List (α × β)), List.lookup k l = some v →
      List.lookup k (l ++ t) = some v := by
  intro l
  induction l with
  | nil => intro t h; simp [List.lookup] at h
  | cons p rest ih =>
    intro t h
    cases p with
    | mk a b =>
      rw [List.cons_append]
      cases hab : k == a
      · simp only [List.lookup, hab] at h ⊢
        exact ih t h
      · simp only [List.lookup, hab] at h ⊢
        exact h

theorem lookup_append_fresh {α β : Type} [BEq α] [LawfulBEq α] (k : α) (v : β) :
    ∀ (l : List (α × β)), List.lookup k l = none →
      List.lookup k (l ++ [(k, v)]) = some v := by
  intro l
  induction l with
  | nil => intro _; simp [List.lookup]
  | cons p rest ih =>
    intro h
    cases p with
    | mk a b =>
      rw [List.cons_append]
      cases hab : k == a
      · simp only [List.lookup, hab] at h ⊢
        exact ih h
      · simp only [List.lookup, hab] at h
        exact absurd h (by simp)

/-- A cache hit returns the cached proxy and leaves the world unchanged. -/
theorem mkProxy_of_lookup (w : World) (sid : Nat) (path : List String) (i : Nat)
    (h : w.proxies.lookup (sid, pathKey path) = some i) :
    mkProxy w sid path = (w, i) := by
  simp only [mkProxy]
  rw [h]

/-- A cache miss records a fresh proxy. -/
theorem mkProxy_of_lookup_none (w : World) (sid : Nat) (path : List String)
    (h : w.proxies.lookup (sid, pathKey path) = none) :
    mkProxy w sid path =
      ({ w with proxies := w.proxies ++ [((sid, pathKey path), w.proxies.length)] },
       w.proxies.length) := by
  simp only [mkProxy]
  rw [h]

/-- After `mkProxy`, the cache holds the proxy it returned. -/
theorem mkProxy_lookup_after (w : World) (sid : Nat) (path : List String) :
    ((mkProxy w sid path).1).proxies.lookup (sid, pathKey path) =
      some (mkProxy w sid path).2 := by
  cases hl : w.proxies.lookup (sid, pathKey path) with
  | some i =>
    rw [mkProxy_of_lookup w sid path i hl]
    exact hl
  | none =>
    rw [mkProxy_of_lookup_none w sid path hl]
    exact lookup_append_fresh _ _ _ hl

/-- **C9 (kernel lemma)**: obtaining the handle for the same
`(store, path)` twice yields the identical proxy object, and the second
call changes nothing. -/
theorem mkProxy_idem (w : World) (sid : Nat) (path : List String) :
    mkProxy (mkProxy w sid path).1 sid path = mkProxy w sid path := by
  rw [mkProxy_of_lookup _ sid path _ (mkProxy_lookup_after w sid path)]

/-- A chain of property accesses `handle[k1][k2]…` starting from the
handle at `(sid, path)`: each step goes through the proxy's path
fall-through, the empty chain returns the handle itself. -/
def chainAccess : World → Nat → List String → List String → Option (World × Nat)
  | w, sid, path, [] => some (mkProxy w sid path)
  | w, sid, path, k :: ks =>
    match proxyChild w sid path k with
    | none => none
    | some (w1, _) => chainAccess w1 sid (path ++ [k]) ks

theorem mkProxy_stores (w : World) (sid : Nat) (path : List String) :
    (mkProxy w sid path).1.stores = w.stores := by
  cases hl : w.proxies.lookup (sid, pathKey path) with
  | some i => rw [mkProxy_of_lookup w sid path i hl]
  | none => rw [mkProxy_of_lookup_none w sid path hl]

theorem mkProxy_proxies_ext (w : World) (sid : Nat) (path : List String) :
    ∃ t, (mkProxy w sid path).1.proxies = w.proxies ++ t := by
  cases hl : w.proxies.lookup (sid, pathKey path) with
  | some i => exact ⟨[], by rw [mkProxy_of_lookup w sid path i hl]; simp⟩
  | none =>
    exact ⟨[((sid, pathKey path), w.proxies.length)],
      by rw [mkProxy_of_lookup_none w sid path hl]⟩

/-- Unpacking a successful `proxyChild` step. -/
theorem proxyChild_inv (w : World) (sid : Nat) (path : List String) (k : String)
    (p : World × Nat) (h : proxyChild w sid path k = some p) :
    ¬ k ∈ specialProps ∧ (w.getStore sid).isDerived = false ∧
      mkProxy w sid (path ++ [k]) = p := by
  unfold proxyChild at h
  by_cases hs : k ∈ specialProps
  · rw [if_pos hs] at h
    exact absurd h (by simp)
  · rw [if_neg hs] at h
    by_cases hd : (w.getStore sid).isDerived = true
    · rw [if_pos hd] at h
      exact absurd h (by simp)
    · rw [if_neg hd] at h
      exact ⟨hs, by simpa using hd, Option.some.inj h⟩

theorem proxyChild_of (w : World) (sid : Nat) (path : List String) (k : String)
    (hs : ¬ k ∈ specialProps) (hd : (w.getStore sid).isDerived = false) :
    proxyChild w sid path k = some (mkProxy w sid (path ++ [k])) := by
  unfold proxyChild
  rw [if_neg hs, if_neg (by simp [hd])]

theorem chainAccess_stores (ks : List String) :
    ∀ w sid path w1 i, chainAccess w sid path ks = some (w1, i) →
      w1.stores = w.stores := by
  induction ks with
  | nil =>
    intro w sid path w1 i h
    simp only [chainAccess] at h
    have hst := mkProxy_stores w sid path
    rw [Option.some.inj h] at hst
    exact hst
  | cons k ks ih =>
    intro w sid path w1 i h
    simp only [chainAccess] at h
    cases hpc : proxyChild w sid path k with
    | none => rw [hpc] at h; exact absurd h (by simp)
    | some p =>
      rw [hpc] at h
      dsimp only at h
      obtain ⟨hs, hd, hmk⟩ := proxyChild_inv w sid path k p hpc
      have h1 := ih _ sid _ _ _ h
      have h2 := mkProxy_stores w sid (path ++ [k])
      rw [hmk] at h2
      rw [h1, h2]

theorem chainAccess_proxies_ext (ks : List String) :
    ∀ w sid path w1 i, chainAccess w sid path ks = some (w1, i) →
      ∃ t, w1.proxies = w.proxies ++ t := by
  induction ks with
  | nil =>
    intro w sid path w1 i h
    simp only [chainAccess] at h
    obtain ⟨t, ht⟩ := mkProxy_proxies_ext w sid path
    rw [Option.some.inj h] at ht
    exact ⟨t, ht⟩
  | cons k ks ih =>
    intro w sid path w1 i h
    simp only [chainAccess] at h
    cases hpc : proxyChild w sid path k with
    | none => rw [hpc] at h; exact absurd h (by simp)
    | some p =>
      rw [hpc] at h
      dsimp only at h
      obtain ⟨hs, hd, hmk⟩ := proxyChild_inv w sid path k p hpc
      obtain ⟨t1, ht1⟩ := ih _ sid _ _ _ h
      obtain ⟨t2, ht2⟩ := mkProxy_proxies_ext w sid (path ++ [k])
      rw [hmk] at ht2
      exact ⟨t2 ++ t1, by rw [ht1, ht2, List.append_assoc]⟩

/-- **C9**: handle identity.  Re-obtaining the handle for `(store, path)`
— by a repeated direct call, or by replaying an entire chain of property
accesses along the keys `ks` — returns the identical (reference-equal)
proxy object, and creates nothing new: handles are cached per
`(store, joined path)` for the life of the store. -/
theorem c9_handle_identity (ks : List String) :
    ∀ (w : World) (sid : Nat) (path : List String) (w1 : World) (i : Nat),
      chainAccess w sid path ks = some (w1, i) →
      mkProxy (mkProxy w sid path).1 sid path = mkProxy w sid path ∧
      chainAccess w1 sid path ks = some (w1, i) := by
  induction ks with
  | nil =>
    intro w sid path w1 i h
    refine ⟨mkProxy_idem w sid path, ?_⟩
    simp only [chainAccess] at h ⊢
    have h2 := mkProxy_idem w sid path
    rw [Option.some.inj h] at h2
    rw [h2]
  | cons k ks ih =>
    intro w sid path w1 i h
    refine ⟨mkProxy_idem w sid path, ?_⟩
    simp only [chainAccess] at h ⊢
    cases hpc : proxyChild w sid path k with
    | none => rw [hpc] at h; exact absurd h (by simp)
    | some p =>
      rw [hpc] at h
      dsimp only at h
      cases p with
      | mk wa j =>
        obtain ⟨hs, hd, hmk⟩ := proxyChild_inv w sid path k (wa, j) hpc
        have hknow : wa.proxies.lookup (sid, pathKey (path ++ [k])) = some j := by
          have hla := mkProxy_lookup_after w sid (path ++ [k])
          rw [hmk] at hla
          exact hla
        obtain ⟨t, ht⟩ := chainAccess_proxies_ext ks wa sid (path ++ [k]) w1 i h
        have hlook1 : w1.proxies.lookup (sid, pathKey (path ++ [k])) = some j := by
          rw [ht]
          exact lookup_append_some _ _ _ _ hknow
        have hstores : w1.stores = w.stores := by
          have hst := mkProxy_stores w sid (path ++ [k])
          rw [hmk] at hst
          exact (chainAccess_stores ks wa sid (path ++ [k]) w1 i h).trans hst
        have hd1 : (w1.getStore sid).isDerived = false := by
          have hg : w1.getStore sid = w.getStore sid := by
            unfold World.getStore
            rw [hstores]
          rw [hg]
          exact hd
        rw [proxyChild_of w1 sid path k hs hd1,
          mkProxy_of_lookup w1 sid (path ++ [k]) j hlook1]
        dsimp only
        exact (ih wa sid (path ++ [k]) w1 i h).2

def c9W : World := (mkStore {} (.num 0)).1

def c9Run : Option (World × Nat) := chainAccess c9W 0 [] ["a", "b"]

def c9W2 : World := (c9Run.getD (c9W, 0)).1

def c9i : Nat := (c9Run.getD (c9W, 0)).2

/-- Witness for C9: on a concrete store, the chain `handle.a.b` exists,
repeating the root call returns the identical proxy, and replaying the
chain returns the identical handle with the world unchanged. -/
theorem c9_witness :
    chainAccess c9W 0 [] ["a", "b"] = some (c9W2, c9i) ∧
    (mkProxy (mkProxy c9W 0 []).1 0 [] = mkProxy c9W 0 [] ∧
     chainAccess c9W2 0 [] ["a", "b"] = some (c9W2, c9i)) :=
  ⟨rfl, c9_handle_identity ["a", "b"] c9W 0 [] c9W2 c9i rfl⟩

/-! ## C3: at most one async invocation in flight -/

theorem settleAsync_getStore_ne (w : World) (sid tid : Nat) (h : tid ≠ sid) :
    (settleAsync w sid).getStore tid = w.getStore tid := by
  unfold settleAsync
  cases hp : (w.getStore sid).pending with
  | none => rfl
  | some o =>
    cases o with
    | some r =>
      dsimp only
      rw [getStore_fireListeners, getStore_updStore_ne _ _ _ _ h]
    | none =>
      dsimp only [heapAlloc]
      rw [getStore_fireListeners, getStore_updStore_ne _ _ _ _ h]
      rfl

theorem wframe_proxyGet (fuel : Nat) (w : World) (sid : Nat) (path : List String) :
    WFrame w (proxyGet fuel w sid path).1 := by
  unfold proxyGet
  by_cases hd : (w.getStore sid).isDerived
  · simp only [hd, if_true]
    exact wframe_computeDerivedValue fuel w sid
  · simp only [hd, Bool.false_eq_true, if_false]
    exact WFrame.rfl w

/-- **C2 (amended)**: recomputation never rebuilds the dependency graph.
Both recomputation triggers — a mutation (`setState`, with its whole
recompute/notification pipeline) and a read through a derived handle's
`get` (`proxyGet`, which recomputes on read via `computeDerivedValue`) —
leave every store's `dependencies` set and `dependencyMap` entry exactly
as they were: the dependency graph is populated only at creation time. -/
theorem c2_amended_recompute_keeps_graph (fuel : Nat) (w : World) (sid : Nat)
    (path : List String) (arg : SetArg) (tid : Nat) :
    (((setState fuel w sid path arg).getStore tid).dependencies =
        (w.getStore tid).dependencies ∧
      ((setState fuel w sid path arg).getStore tid).dependents =
        (w.getStore tid).dependents) ∧
    (((proxyGet fuel w sid path).1.getStore tid).dependencies =
        (w.getStore tid).dependencies ∧
      ((proxyGet fuel w sid path).1.getStore tid).dependents =
        (w.getStore tid).dependents) := by
  constructor
  · obtain ⟨-, -, -, h4, h5, -, -, -⟩ :=
      fixedPart_parts ((wframe_setState fuel w sid path arg).fixed tid)
    exact ⟨h4, h5⟩
  · obtain ⟨-, -, -, h4, h5, -, -, -⟩ :=
      fixedPart_parts ((wframe_proxyGet fuel w sid path).fixed tid)
    exact ⟨h4, h5⟩

/-- The externally triggerable steps of the engine: a write through a
handle's setter, delivery of a change notification to an async store's
getter, a read through a handle's `get`, and settlement of a pending
async invocation. -/
inductive Step where
  | write (sid : Nat) (path : List String) (arg : SetArg)
  | trigger (sid : Nat)
  | readStore (sid : Nat) (path : List String)
  | settle (sid : Nat)

def isSettleFor (sid : Nat) : Step → Bool
  | .settle t => t == sid
  | _ => false

def applyStep (fuel : Nat) (w : World) : Step → World
  | .write sid path arg => setState fuel w sid path arg
  | .trigger sid => (asyncGetterStep w sid).1
  | .readStore sid path => (proxyGet fuel w sid path).1
  | .settle sid => settleAsync w sid

def applySteps (fuel : Nat) (w : World) (steps : List Step) : World :=
  steps.foldl (applyStep fuel) w

/-- Any single step other than settling `sid` keeps an in-flight run of
`sid` in flight, with its invocation count and pending outcome intact. -/
theorem step_preserves_inflight (fuel : Nat) (s : Step) (sid : Nat)
    (hns : isSettleFor sid s = false) (w : World)
    (hrun : (w.getStore sid).isRunning = true) :
    ((applyStep fuel w s).getStore sid).isRunning = true ∧
    ((applyStep fuel w s).getStore sid).invocations = (w.getStore sid).invocations ∧
    ((applyStep fuel w s).getStore sid).pending = (w.getStore sid).pending := by
  cases s with
  | write tid path arg => exact (wframe_setState fuel w tid path arg).running sid hrun
  | trigger tid => exact (wframe_asyncGetterStep w tid).running sid hrun
  | readStore tid path => exact (wframe_proxyGet fuel w tid path).running sid hrun
  | settle tid =>
    have hne : sid ≠ tid := by
      intro he
      rw [isSettleFor, he] at hns
      simp at hns
    rw [show applyStep fuel w (.settle tid) = settleAsync w tid from rfl,
      settleAsync_getStore_ne w tid sid hne]
    exact ⟨hrun, rfl, rfl⟩

/-- **C3**: at most one asynchronous invocation is in flight per async
store.  While a run of store `sid` is in flight, an arbitrary sequence of
steps — writes with their whole cascades, overlapping change-notification
triggers, reads, settlements of other stores — that does not contain the
settlement of `sid` starts no second invocation: the invocation count is
unchanged (so exactly the one running invocation exists until it
settles), the store is still marked running, and the pending outcome is
untouched. -/
theorem c3_at_most_one_inflight (fuel : Nat) (steps : List Step) :
    ∀ (w : World) (sid : Nat),
      (w.getStore sid).isRunning = true →
      (steps.all fun s => !(isSettleFor sid s)) = true →
      ((applySteps fuel w steps).getStore sid).isRunning = true ∧
      ((applySteps fuel w steps).getStore sid).invocations =
        (w.getStore sid).invocations ∧
      ((applySteps fuel w steps).getStore sid).pending =
        (w.getStore sid).pending := by
  induction steps with
  | nil => intro w sid hrun _; exact ⟨hrun, rfl, rfl⟩
  | cons s rest ih =>
    intro w sid hrun hall
    rw [List.all_cons, Bool.and_eq_true] at hall
    have hns : isSettleFor sid s = false := by
      cases hsf : isSettleFor sid s
      · rfl
      · rw [hsf] at hall; simp at hall
    obtain ⟨h1, h2, h3⟩ := step_preserves_inflight fuel s sid hns w hrun
    obtain ⟨g1, g2, g3⟩ := ih (applyStep fuel w s) sid h1 hall.2
    exact ⟨g1, g2.trans h2, g3.trans h3⟩

/-- Base store 0, derived target 1 over it, async derived store 2 whose
creation starts the one in-flight invocation. -/
def c3W : World :=
  (mkAsync (mkDerived (mkStore {} (.num 0)).1 (.read 0 fun v => .ret v)).1 1
    (.read 0 fun v => .ret v)).1

/-- Witness for C3: while the creation-time invocation of the async store
is still in flight, three overlapping input-changing writes to the base
store (each cascading into the async store's getter) leave the invocation
count at exactly 1. -/
theorem c3_witness :
    (c3W.getStore 2).isRunning = true ∧
    (c3W.getStore 2).invocations = 1 ∧
    ((applySteps 3 c3W [.write 0 [] (.val (.num 1)), .write 0 [] (.val (.num 2)),
        .write 0 [] (.val (.num 3))]).getStore 2).invocations = 1 :=
  ⟨by decide, by decide,
   ((c3_at_most_one_inflight 3 [.write 0 [] (.val (.num 1)), .write 0 [] (.val (.num 2)),
        .write 0 [] (.val (.num 3))] c3W 2 (by decide) (by decide)).2.1).trans (by decide)⟩

/-! ## C4: in-flight results applied, follow-up inputs deferred not dropped -/

theorem length_settleAsync (w : World) (sid : Nat) :
    (settleAsync w sid).stores.length = w.stores.length := by
  unfold settleAsync
  cases hp : (w.getStore sid).pending with
  | none => rfl
  | some o =>
    cases o with
    | some r =>
      dsimp only
      simp [World.fireListeners, World.updStore]
    | none =>
      dsimp only [heapAlloc]
      simp [World.fireListeners, World.updStore]

/-- The async getter on a changed input: remember it and ask for a run. -/
theorem asyncGetterStep_run (w : World) (sid : Nat) (vNew : JSVal)
    (hv : evalCompute w ((w.getStore (w.getStore sid).targetId).getter) = some vNew)
    (hneq : vNew ≠ (w.getStore sid).lastInputValue) :
    (asyncGetterStep w sid).1 =
      runAsyncOperation (w.updStore sid fun s0 => { s0 with lastInputValue := vNew })
        sid := by
  simp only [asyncGetterStep, hv]
  rw [if_neg hneq]

/-- **C4**: while a computation is in flight, a change notification with a
fresh upstream input is remembered (`lastInputValue` updated) but starts
no new invocation; when the in-flight invocation resolves it is still
applied (its result becomes the store's value even though the input has
moved on); and the next change notification arriving after the run has
finished, carrying an input different from the remembered one, does start
a new invocation of `asyncFn` with that newest input. -/
theorem c4_deferred_not_cancelled (w : World) (sid : Nat) (r vNew : JSVal)
    (hlt : sid < w.stores.length)
    (hrun : (w.getStore sid).isRunning = true)
    (hpend : (w.getStore sid).pending = some (some r))
    (hv : evalCompute w ((w.getStore (w.getStore sid).targetId).getter) = some vNew)
    (hneq : vNew ≠ (w.getStore sid).lastInputValue) :
    ((asyncGetterStep w sid).1.getStore sid).lastInputValue = vNew ∧
    ((asyncGetterStep w sid).1.getStore sid).invocations =
      (w.getStore sid).invocations ∧
    ((asyncGetterStep w sid).1.getStore sid).isRunning = true ∧
    ((settleAsync (asyncGetterStep w sid).1 sid).getStore sid).value = r ∧
    ((settleAsync (asyncGetterStep w sid).1 sid).getStore sid).isRunning = false ∧
    (∀ (w3 : World) (v2 : JSVal),
      w3.getStore sid = (settleAsync (asyncGetterStep w sid).1 sid).getStore sid →
      w3.stores.length = w.stores.length →
      evalCompute w3 ((w3.getStore (w3.getStore sid).targetId).getter) = some v2 →
      v2 ≠ vNew →
      ((asyncGetterStep w3 sid).1.getStore sid).invocations =
        (w.getStore sid).invocations + 1 ∧
      ((asyncGetterStep w3 sid).1.getStore sid).isRunning = true ∧
      ((asyncGetterStep w3 sid).1.getStore sid).lastInputValue = v2) := by
  have hX : (asyncGetterStep w sid).1 =
      w.updStore sid fun s0 => { s0 with lastInputValue := vNew } := by
    rw [asyncGetterStep_run w sid vNew hv hneq]
    apply runAsyncOperation_of_running
    rw [getStore_updStore_self _ _ _ hlt]
    exact hrun
  have hXs : (asyncGetterStep w sid).1.getStore sid =
      { w.getStore sid with lastInputValue := vNew } := by
    rw [hX, getStore_updStore_self _ _ _ hlt]
  have hpend1 : ((asyncGetterStep w sid).1.getStore sid).pending = some (some r) := by
    rw [hXs]; exact hpend
  have hsettle : settleAsync (asyncGetterStep w sid).1 sid =
      (((asyncGetterStep w sid).1.updStore sid fun s0 =>
        { s0 with value := r, lastComputedValue := r, isRunning := false,
                  pending := none }).fireListeners sid) := by
    unfold settleAsync
    rw [hpend1]
  have hlen1 : (asyncGetterStep w sid).1.stores.length = w.stores.length := by
    rw [hX]; exact length_updStore ..
  have hW2s : (settleAsync (asyncGetterStep w sid).1 sid).getStore sid =
      { (asyncGetterStep w sid).1.getStore sid with
          value := r, lastComputedValue := r, isRunning := false, pending := none } := by
    rw [hsettle, getStore_fireListeners,
      getStore_updStore_self _ _ _ (by rw [hlen1]; exact hlt)]
  refine ⟨by rw [hXs], by rw [hXs], by rw [hXs]; exact hrun,
    by rw [hW2s], by rw [hW2s], ?_⟩
  intro w3 v2 heq hlen3 hv2 hne2
  have hlast3 : (w3.getStore sid).lastInputValue = vNew := by
    rw [heq, hW2s, hXs]
  have hrun3 : (w3.getStore sid).isRunning = false := by
    rw [heq, hW2s]
  have hXr : (asyncGetterStep w3 sid).1 =
      runAsyncOperation (w3.updStore sid fun s0 => { s0 with lastInputValue := v2 })
        sid := by
    apply asyncGetterStep_run w3 sid v2 hv2
    rw [hlast3]; exact hne2
  have hlt3 : sid < w3.stores.length := by rw [hlen3]; exact hlt
  have hXs3 : (w3.updStore sid fun s0 => { s0 with lastInputValue := v2 }).getStore sid =
      { w3.getStore sid with lastInputValue := v2 } :=
    getStore_updStore_self _ _ _ hlt3
  have hrun3a : ((w3.updStore sid fun s0 =>
      { s0 with lastInputValue := v2 }).getStore sid).isRunning = false := by
    rw [hXs3]; exact hrun3
  obtain ⟨q1, q2, q3⟩ := runAsyncOperation_start _ sid hrun3a
    (by rw [length_updStore]; exact hlt3)
  have hinv3 : (w3.getStore sid).invocations = (w.getStore sid).invocations := by
    rw [heq, hW2s, hXs]
  refine ⟨?_, ?_, ?_⟩
  · rw [hXr, q2, hXs3]
    simp [hinv3]
  · rw [hXr]; exact q1
  · rw [hXr, q3, hXs3]

/-- Base 0 holding 0, target 1 mirroring it, async 2 computing 42; the
creation-time invocation is still in flight. -/
def c4W : World :=
  (mkAsync (mkDerived (mkStore {} (.num 0)).1 (.read 0 fun v => .ret v)).1 1
    (.read 0 fun _ => .ret (.num 42))).1

def c4W2 : World := settleAsync (asyncGetterStep c4W 2).1 2

def c4W3 : World := c4W2.updStore 0 fun s0 => { s0 with value := .num 7 }

/-- Witness for C4: the mid-flight notification is remembered without a
new start, settling applies the in-flight 42, and the next notification
with fresh input 7 starts invocation number 2. -/
theorem c4_witness :
    ((asyncGetterStep c4W 2).1.getStore 2).lastInputValue = .num 0 ∧
    (c4W2.getStore 2).value = .num 42 ∧
    (c4W2.getStore 2).isRunning = false ∧
    ((asyncGetterStep c4W3 2).1.getStore 2).invocations =
      (c4W.getStore 2).invocations + 1 ∧
    ((asyncGetterStep c4W3 2).1.getStore 2).isRunning = true ∧
    ((asyncGetterStep c4W3 2).1.getStore 2).lastInputValue = .num 7 := by
  have main := c4_deferred_not_cancelled c4W 2 (.num 42) (.num 0) (by decide)
    (by decide) (by decide) (by decide) (by decide)
  obtain ⟨m1, m2, m3, m4, m5, m6⟩ := main
  have tail := m6 c4W3 (.num 7) rfl (by decide) (by decide) (by decide)
  exact ⟨m1, m4, m5, tail.1, tail.2.1, tail.2.2⟩

/-! ## C1: derived-chain correctness -/

theorem valueOf_eq (w : World) (sid : Nat) (h : sid < w.stores.length) :
    w.valueOf sid = some ((w.getStore sid).value) := by
  unfold World.valueOf World.getStore
  rw [List.getElem?_eq_getElem h]
  simp [List.getD_eq_getElem?_getD, List.getElem?_eq_getElem h]

theorem evalCompute_read_ret (w : World) (src : Nat) (f : JSVal → JSVal)
    (h : src < w.stores.length) :
    evalCompute w (.read src fun v => .ret (f v)) =
      some (f ((w.getStore src).value)) := by
  simp [evalCompute, valueOf_eq w src h]

/-- A live linear derivation chain hanging off `src`: each link is a
synchronous derived store whose compute function reads exactly its
predecessor, registered as that predecessor's only dependent; the last
link has no dependents. -/
def chain (w : World) : Nat → List (Nat × (JSVal → JSVal)) → Prop
  | src, [] => (w.getStore src).dependents = []
  | src, (d, f) :: rest =>
    (w.getStore src).dependents = [d] ∧
    src < d ∧ d < w.stores.length ∧
    (w.getStore d).isDerived = true ∧
    (w.getStore d).isAsync = false ∧
    (w.getStore d).getter = ComputeFn.read src (fun v => .ret (f v)) ∧
    chain w d rest

/-- Every link holds (as `value` and `lastComputedValue`) the composition
of the chain's functions applied to `u`. -/
def chainVals (w : World) : JSVal → List (Nat × (JSVal → JSVal)) → Prop
  | _, [] => True
  | u, (d, f) :: rest =>
    (w.getStore d).value = f u ∧ (w.getStore d).lastComputedValue = f u ∧
    chainVals w (f u) rest

/-- Reading every link through its handle's `get` returns exactly its
compute function applied to the current value of its recorded dependency,
without disturbing the world. -/
def chainReads (fuel : Nat) (w : World) : Nat → List (Nat × (JSVal → JSVal)) → Prop
  | _, [] => True
  | src, (d, f) :: rest =>
    proxyGet fuel w d [] = (w, some (f ((w.getStore src).value))) ∧
    chainReads fuel w d rest

theorem chain_ids_gt (links : List (Nat × (JSVal → JSVal))) :
    ∀ w src, chain w src links → ∀ p ∈ links, src < p.1 := by
  induction links with
  | nil => intro w src _ p hp; exact absurd hp (by simp)
  | cons q rest ih =>
    intro w src hc p hp
    cases q with
    | mk d f =>
      obtain ⟨-, hlt, -, -, -, -, hrest⟩ := hc
      rcases List.mem_cons.mp hp with he | hm
      · rw [he]; exact hlt
      · exact Nat.lt_trans hlt (ih w d hrest p hm)

theorem chain_of_eq (links : List (Nat × (JSVal → JSVal))) :
    ∀ (w w' : World) (src : Nat),
      (∀ tid, (w'.getStore tid).fixedPart = (w.getStore tid).fixedPart) →
      w'.stores.length = w.stores.length →
      chain w src links → chain w' src links := by
  induction links with
  | nil =>
    intro w w' src hfix _ hc
    show (w'.getStore src).dependents = []
    obtain ⟨-, -, -, -, h5, -, -, -⟩ := fixedPart_parts (hfix src)
    rw [h5]; exact hc
  | cons q rest ih =>
    intro w w' src hfix hlen hc
    cases q with
    | mk d f =>
      obtain ⟨h1, h2, h3, h4, h5, h6, hrest⟩ := hc
      obtain ⟨-, -, -, -, g5, -, -, -⟩ := fixedPart_parts (hfix src)
      obtain ⟨-, gd2, gd3, -, -, -, gd7, -⟩ := fixedPart_parts (hfix d)
      exact ⟨by rw [g5]; exact h1, h2, by rw [hlen]; exact h3,
        by rw [gd2]; exact h4, by rw [gd3]; exact h5, by rw [gd7]; exact h6,
        ih w w' d hfix hlen hrest⟩

theorem chainVals_of_eq (links : List (Nat × (JSVal → JSVal))) :
    ∀ (w w' : World) (u : JSVal),
      (∀ p ∈ links, w'.getStore p.1 = w.getStore p.1) →
      chainVals w u links → chainVals w' u links := by
  induction links with
  | nil => intro w w' u _ _; trivial
  | cons q rest ih =>
    intro w w' u heq hv
    cases q with
    | mk d f =>
      obtain ⟨h1, h2, h3⟩ := hv
      refine ⟨?_, ?_, ih w w' (f u) (fun p hp => heq p (List.mem_cons_of_mem _ hp)) h3⟩
      · rw [heq (d, f) (List.mem_cons_self _ _)]; exact h1
      · rw [heq (d, f) (List.mem_cons_self _ _)]; exact h2

/-- The heart of C1: recomputing the head of a settled-at-`u0` chain after
the source moved to `u` re-settles the whole chain at `u`, touches no
store outside the chain, and returns the head's new value. -/
theorem cascade_chain (rest : List (Nat × (JSVal → JSVal))) :
    ∀ (fuel : Nat) (w : World) (src d : Nat) (f : JSVal → JSVal) (u u0 : JSVal),
      rest.length < fuel →
      chain w src ((d, f) :: rest) →
      (w.getStore src).value = u →
      chainVals w u0 ((d, f) :: rest) →
      chain (computeDerivedValue fuel w d).1 src ((d, f) :: rest) ∧
      chainVals (computeDerivedValue fuel w d).1 u ((d, f) :: rest) ∧
      (∀ tid, tid ∉ ((d, f) :: rest).map Prod.fst →
        (computeDerivedValue fuel w d).1.getStore tid = w.getStore tid) ∧
      (computeDerivedValue fuel w d).1.stores.length = w.stores.length ∧
      (computeDerivedValue fuel w d).2 = some (f u) := by
  induction rest with
  | nil =>
    intro fuel w src d f u u0 hfuel hchain hu hvals
    obtain ⟨h1, h2, h3, h4, h5, h6, h7⟩ := hchain
    obtain ⟨v1, v2, -⟩ := hvals
    cases fuel with
    | zero => exact absurd hfuel (by simp)
    | succ n =>
      have hsrclen : src < w.stores.length := Nat.lt_trans h2 h3
      have hstep : (if (w.getStore d).isAsync = true then asyncGetterStep w d
          else (w, evalCompute w (w.getStore d).getter)) = (w, some (f u)) := by
        simp only [h5, Bool.false_eq_true, if_false]
        rw [h6, evalCompute_read_ret w src f hsrclen, hu]
      simp only [computeDerivedValue]
      rw [hstep]
      dsimp only
      by_cases heq : f u = (w.getStore d).lastComputedValue
      · rw [if_pos heq]
        have hfu : f u = f u0 := heq.trans v2
        exact ⟨⟨h1, h2, h3, h4, h5, h6, h7⟩,
          ⟨by rw [v1, ← hfu], by rw [v2, ← hfu], trivial⟩,
          fun tid _ => rfl, rfl, rfl⟩
      · rw [if_neg heq]
        dsimp only
        set W3 := (w.updStore d fun s0 =>
          { s0 with value := f u, lastComputedValue := f u }).fireListeners d with hW3
        have hw3d : W3.getStore d =
            { w.getStore d with value := f u, lastComputedValue := f u } := by
          rw [hW3, getStore_fireListeners, getStore_updStore_self _ _ _ h3]
        have hw3ne : ∀ tid, tid ≠ d → W3.getStore tid = w.getStore tid := by
          intro tid ht
          rw [hW3, getStore_fireListeners, getStore_updStore_ne _ _ _ _ ht]
        have hlen3 : W3.stores.length = w.stores.length := by
          rw [hW3, stores_fireListeners, length_updStore]
        have hdeps : (W3.getStore d).dependents = [] := by
          rw [hw3d]; exact h7
        rw [hdeps, List.foldl_nil]
        refine ⟨?_, ⟨by rw [hw3d], by rw [hw3d], trivial⟩, ?_, hlen3, rfl⟩
        · refine chain_of_eq _ w W3 src (fun tid => ?_) hlen3 ⟨h1, h2, h3, h4, h5, h6, h7⟩
          rw [hW3, getStore_fireListeners]
          exact fixedPart_updStore _ _ _ _ (fun s => rfl)
        · intro tid htid
          have ht : tid ≠ d := by simpa using htid
          exact hw3ne tid ht
  | cons q rest2 ih =>
    intro fuel w src d f u u0 hfuel hchain hu hvals
    cases q with
    | mk d2 f2 =>
      obtain ⟨h1, h2, h3, h4, h5, h6, h7⟩ := hchain
      have h7x := h7
      obtain ⟨g1, g2, g3, g4, g5, g6, g7⟩ := h7x
      obtain ⟨v1, v2, v3⟩ := hvals
      cases fuel with
      | zero => exact absurd hfuel (by simp)
      | succ n =>
        have hsrclen : src < w.stores.length := Nat.lt_trans h2 h3
        have hstep : (if (w.getStore d).isAsync = true then asyncGetterStep w d
            else (w, evalCompute w (w.getStore d).getter)) = (w, some (f u)) := by
          simp only [h5, Bool.false_eq_true, if_false]
          rw [h6, evalCompute_read_ret w src f hsrclen, hu]
        simp only [computeDerivedValue]
        rw [hstep]
        dsimp only
        by_cases heq : f u = (w.getStore d).lastComputedValue
        · rw [if_pos heq]
          have hfu : f u = f u0 := heq.trans v2
          exact ⟨⟨h1, h2, h3, h4, h5, h6, h7⟩,
            ⟨by rw [v1, ← hfu], by rw [v2, ← hfu], by rw [hfu]; exact v3⟩,
            fun tid _ => rfl, rfl, rfl⟩
        · rw [if_neg heq]
          dsimp only
          set W3 := (w.updStore d fun s0 =>
            { s0 with value := f u, lastComputedValue := f u }).fireListeners d with hW3
          have hw3d : W3.getStore d =
              { w.getStore d with value := f u, lastComputedValue := f u } := by
            rw [hW3, getStore_fireListeners, getStore_updStore_self _ _ _ h3]
          have hw3ne : ∀ tid, tid ≠ d → W3.getStore tid = w.getStore tid := by
            intro tid ht
            rw [hW3, getStore_fireListeners, getStore_updStore_ne _ _ _ _ ht]
          have hw3fix : ∀ tid, (W3.getStore tid).fixedPart = (w.getStore tid).fixedPart := by
            intro tid
            rw [hW3, getStore_fireListeners]
            exact fixedPart_updStore _ _ _ _ (fun s => rfl)
          have hlen3 : W3.stores.length = w.stores.length := by
            rw [hW3, stores_fireListeners, length_updStore]
          have hdeps : (W3.getStore d).dependents = [d2] := by
            rw [hw3d]; exact g1
          rw [hdeps, List.foldl_cons, List.foldl_nil]
          have hd2ne : d2 ≠ d := Nat.ne_of_gt g2
          have hd2w3 : W3.getStore d2 = w.getStore d2 := hw3ne d2 hd2ne
          have hd2der : (W3.getStore d2).isDerived = true := by rw [hd2w3]; exact g4
          rw [if_pos hd2der]
          have hidsgt : ∀ p ∈ (d2, f2) :: rest2, d < p.1 :=
            chain_ids_gt ((d2, f2) :: rest2) w d h7
          have hchain3 : chain W3 d ((d2, f2) :: rest2) :=
            chain_of_eq _ w W3 d hw3fix hlen3 h7
          have hvals3 : chainVals W3 (f u0) ((d2, f2) :: rest2) := by
            refine chainVals_of_eq _ w W3 (f u0) (fun p hp => ?_) v3
            exact hw3ne p.1 (Nat.ne_of_gt (hidsgt p hp))
          have hdu3 : (W3.getStore d).value = f u := by rw [hw3d]
          obtain ⟨c1, c2, c3, c4, c5⟩ := ih n W3 d d2 f2 (f u) (f u0)
            (Nat.lt_of_succ_lt_succ hfuel) hchain3 hdu3 hvals3
          have hd_notin : d ∉ ((d2, f2) :: rest2).map Prod.fst := by
            intro hmem
            obtain ⟨p, hp, hpe⟩ := List.mem_map.mp hmem
            exact absurd (hpe ▸ hidsgt p hp) (Nat.lt_irrefl d)
          have hsrc_notin : src ∉ ((d2, f2) :: rest2).map Prod.fst := by
            intro hmem
            obtain ⟨p, hp, hpe⟩ := List.mem_map.mp hmem
            exact absurd (Nat.lt_trans h2 (hidsgt p hp))
              (by rw [hpe]; exact Nat.lt_irrefl src)
          have hW4d : (computeDerivedValue n W3 d2).1.getStore d = W3.getStore d :=
            c3 d hd_notin
          refine ⟨⟨?_, h2, ?_, ?_, ?_, ?_, c1⟩,
            ⟨by rw [hW4d, hw3d], by rw [hW4d, hw3d], c2⟩, ?_, c4.trans hlen3, rfl⟩
          · rw [c3 src hsrc_notin, hw3ne src (Nat.ne_of_lt h2)]
            exact h1
          · rw [c4, hlen3]; exact h3
          · rw [hW4d, hw3d]; exact h4
          · rw [hW4d, hw3d]; exact h5
          · rw [hW4d, hw3d]; exact h6
          · intro tid htid
            rw [List.map_cons, List.mem_cons] at htid
            push_neg at htid
            rw [c3 tid (by simpa using htid.2), hw3ne tid htid.1]

/-- Reading any link of a settled chain recomputes it to the same value
and returns its function applied to the current value of its recorded
dependency. -/
theorem chainReads_of_settled (links : List (Nat × (JSVal → JSVal))) :
    ∀ (fuel : Nat) (w : World) (src : Nat),
      chain w src links →
      chainVals w ((w.getStore src).value) links →
      chainReads fuel w src links := by
  induction links with
  | nil => intro fuel w src _ _; trivial
  | cons q rest ih =>
    intro fuel w src hc hv
    cases q with
    | mk d f =>
      obtain ⟨h1, h2, h3, h4, h5, h6, h7⟩ := hc
      obtain ⟨v1, v2, v3⟩ := hv
      refine ⟨?_, ih fuel w d h7 (by rw [v1]; exact v3)⟩
      unfold proxyGet
      simp only [h4, if_true]
      cases fuel with
      | zero =>
        simp only [computeDerivedValue]
        rw [v2]
      | succ n =>
        have hsrclen : src < w.stores.length := Nat.lt_trans h2 h3
        have hstep : (if (w.getStore d).isAsync = true then asyncGetterStep w d
            else (w, evalCompute w (w.getStore d).getter)) =
              (w, some (f ((w.getStore src).value))) := by
          simp only [h5, Bool.false_eq_true, if_false]
          rw [h6, evalCompute_read_ret w src f hsrclen]
        simp only [computeDerivedValue]
        rw [hstep]
        dsimp only
        rw [if_pos v2.symm]

/-- `createSetState` specialised to the root path. -/
theorem setState_root (fuel : Nat) (w : World) (sid : Nat) (arg : SetArg) :
    setState fuel w sid [] arg =
      if applySetArg arg (w.getStore sid).value = (w.getStore sid).value then w
      else
        notifyDependents fuel
          ((w.updStore sid fun s0 =>
            { s0 with value := applySetArg arg (w.getStore sid).value }).fireListeners
            sid)
          ((((w.updStore sid fun s0 =>
            { s0 with value := applySetArg arg (w.getStore sid).value }).fireListeners
            sid).getStore sid).dependents) := rfl

/-- **C1**: derived-chain correctness.  For any linear chain of derived
stores over a base store (any depth, so in particular depth ≥ 3) that has
settled at the base's current value, a mutation of the base re-settles
the whole chain: afterwards the chain shape is intact, every link's value
is its compute function applied to the new current value of its
dependency (so link `i` holds the `i`-fold composition applied to the new
base value), and reading any link through its handle returns exactly its
compute function applied to the current value of its last-recorded
dependency — with the sole exception of a throwing recomputation, which
is covered by C8. -/
theorem c1_derived_chain_correct (links : List (Nat × (JSVal → JSVal))) (fuel : Nat)
    (w : World) (bid : Nat) (arg : SetArg)
    (hfuel : links.length ≤ fuel)
    (hlt : bid < w.stores.length)
    (hchain : chain w bid links)
    (hvals : chainVals w ((w.getStore bid).value) links) :
    chain (setState fuel w bid [] arg) bid links ∧
    chainVals (setState fuel w bid [] arg)
      (((setState fuel w bid [] arg).getStore bid).value) links ∧
    chainReads fuel (setState fuel w bid [] arg) bid links := by
  rw [setState_root]
  by_cases hsup : applySetArg arg (w.getStore bid).value = (w.getStore bid).value
  · rw [if_pos hsup]
    exact ⟨hchain, hvals, chainReads_of_settled links fuel w bid hchain hvals⟩
  · rw [if_neg hsup]
    have hW1bid : ((w.updStore bid fun s0 =>
        { s0 with value := applySetArg arg (w.getStore bid).value }).fireListeners
        bid).getStore bid =
        { w.getStore bid with value := applySetArg arg (w.getStore bid).value } := by
      rw [getStore_fireListeners, getStore_updStore_self _ _ _ hlt]
    have hW1ne : ∀ tid, tid ≠ bid → ((w.updStore bid fun s0 =>
        { s0 with value := applySetArg arg (w.getStore bid).value }).fireListeners
        bid).getStore tid = w.getStore tid := by
      intro tid ht
      rw [getStore_fireListeners, getStore_updStore_ne _ _ _ _ ht]
    have hW1fix : ∀ tid, (((w.updStore bid fun s0 =>
        { s0 with value := applySetArg arg (w.getStore bid).value }).fireListeners
        bid).getStore tid).fixedPart = (w.getStore tid).fixedPart := by
      intro tid
      rw [getStore_fireListeners]
      exact fixedPart_updStore _ _ _ _ (fun s => rfl)
    have hW1len : ((w.updStore bid fun s0 =>
        { s0 with value := applySetArg arg (w.getStore bid).value }).fireListeners
        bid).stores.length = w.stores.length := by
      rw [stores_fireListeners, length_updStore]
    cases links with
    | nil =>
      have hdeps : (((w.updStore bid fun s0 =>
          { s0 with value := applySetArg arg (w.getStore bid).value }).fireListeners
          bid).getStore bid).dependents = [] := by
        rw [hW1bid]; exact hchain
      rw [hdeps]
      refine ⟨?_, trivial, trivial⟩
      show ((((w.updStore bid fun s0 =>
        { s0 with value := applySetArg arg (w.getStore bid).value }).fireListeners
        bid)).getStore bid).dependents = []
      rw [hW1bid]
      exact hchain
    | cons q tlinks =>
      cases q with
      | mk d1 f1 =>
        obtain ⟨h1, h2, h3, h4, h5, h6, h7⟩ := hchain
        have hdeps : (((w.updStore bid fun s0 =>
            { s0 with value := applySetArg arg (w.getStore bid).value }).fireListeners
            bid).getStore bid).dependents = [d1] := by
          rw [hW1bid]; exact h1
        rw [hdeps]
        simp only [notifyDependents]
        have hd1w1 : ((w.updStore bid fun s0 =>
            { s0 with value := applySetArg arg (w.getStore bid).value }).fireListeners
            bid).getStore d1 = w.getStore d1 := hW1ne d1 (Nat.ne_of_gt h2)
        have hd1der : (((w.updStore bid fun s0 =>
            { s0 with value := applySetArg arg (w.getStore bid).value }).fireListeners
            bid).getStore d1).isDerived = true := by rw [hd1w1]; exact h4
        have hd1async : (((w.updStore bid fun s0 =>
            { s0 with value := applySetArg arg (w.getStore bid).value }).fireListeners
            bid).getStore d1).isAsync = false := by rw [hd1w1]; exact h5
        rw [if_pos hd1der, if_neg (by rw [hd1async]; simp)]
        have hidsgt : ∀ p ∈ (d1, f1) :: tlinks, bid < p.1 :=
          chain_ids_gt ((d1, f1) :: tlinks) w bid ⟨h1, h2, h3, h4, h5, h6, h7⟩
        have hchain1 : chain ((w.updStore bid fun s0 =>
            { s0 with value := applySetArg arg (w.getStore bid).value }).fireListeners
            bid) bid ((d1, f1) :: tlinks) :=
          chain_of_eq _ w _ bid hW1fix hW1len ⟨h1, h2, h3, h4, h5, h6, h7⟩
        have hvals1 : chainVals ((w.updStore bid fun s0 =>
            { s0 with value := applySetArg arg (w.getStore bid).value }).fireListeners
            bid) ((w.getStore bid).value) ((d1, f1) :: tlinks) := by
          refine chainVals_of_eq _ w _ _ (fun p hp => ?_) hvals
          exact hW1ne p.1 (Nat.ne_of_gt (hidsgt p hp))
        have hu1 : (((w.updStore bid fun s0 =>
            { s0 with value := applySetArg arg (w.getStore bid).value }).fireListeners
            bid).getStore bid).value = applySetArg arg (w.getStore bid).value := by
          rw [hW1bid]
        obtain ⟨c1, c2, c3, c4, c5⟩ := cascade_chain tlinks fuel _ bid d1 f1
          (applySetArg arg (w.getStore bid).value) ((w.getStore bid).value)
          (Nat.lt_of_lt_of_le (Nat.lt_of_succ_le (by simpa using hfuel)) (Nat.le_refl _))
          hchain1 hu1 hvals1
        have hbid_notin : bid ∉ ((d1, f1) :: tlinks).map Prod.fst := by
          intro hmem
          obtain ⟨p, hp, hpe⟩ := List.mem_map.mp hmem
          exact absurd (hpe ▸ hidsgt p hp) (Nat.lt_irrefl bid)
        have hW4bid := (c3 bid hbid_notin).trans hW1bid
        refine ⟨c1, ?_, ?_⟩
        · rw [hW4bid]
          exact c2
        · refine chainReads_of_settled _ fuel _ bid c1 ?_
          rw [hW4bid]
          exact c2

def c1f1 : JSVal → JSVal := fun v =>
  match v with | .num n => .num (n + 1) | _ => .undef

def c1f2 : JSVal → JSVal := fun v =>
  match v with | .num n => .num (n * 10) | _ => .undef

def c1f3 : JSVal → JSVal := fun v =>
  match v with | .num n => .num (n + 100) | _ => JSVal.undef

/-- A depth-3 chain: base 0 holding 2, derived 1 = base+1, derived 2 =
10·(store 1), derived 3 = (store 2)+100. -/
def c1W : World :=
  (mkDerived (mkDerived (mkDerived (mkStore {} (.num 2)).1
    (.read 0 fun v => .ret (c1f1 v))).1
    (.read 1 fun v => .ret (c1f2 v))).1
    (.read 2 fun v => .ret (c1f3 v))).1

def c1L : List (Nat × (JSVal → JSVal)) := [(1, c1f1), (2, c1f2), (3, c1f3)]

/-- Witness for C1 at depth 3: after writing 7 to the base, the chain is
settled — the deepest store reads (and holds) ((7+1)·10)+100 = 180. -/
theorem c1_witness :
    c1L.length ≤ 5 ∧
    (chain (setState 5 c1W 0 [] (.val (.num 7))) 0 c1L ∧
     chainVals (setState 5 c1W 0 [] (.val (.num 7)))
       (((setState 5 c1W 0 [] (.val (.num 7))).getStore 0).value) c1L ∧
     chainReads 5 (setState 5 c1W 0 [] (.val (.num 7))) 0 c1L) ∧
    ((setState 5 c1W 0 [] (.val (.num 7))).getStore 3).value = .num 180 :=
  ⟨by decide,
   c1_derived_chain_correct c1L 5 c1W 0 (.val (.num 7)) (by decide) (by decide)
     ⟨by decide, by decide, by decide, by decide, by decide, rfl,
      by decide, by decide, by decide, by decide, by decide, rfl,
      by decide, by decide, by decide, by decide, by decide, rfl,
      (show (c1W.getStore 3).dependents = [] by decide)⟩
     ⟨by decide, by decide, by decide, by decide, by decide, by decide, trivial⟩,
   by decide⟩

/-! ## C6: path isolation and copy-on-write freshness -/

/-- A value's references stay below `n`. -/
def valBounded (n : Nat) : JSVal → Prop
  | .ref a => a < n
  | _ => True

/-- Every value held by the container (elements, fields and array expando
properties) has its references below `n`. -/
def containerBounded (n : Nat) : Container → Prop
  | .obj fields => ∀ p ∈ fields, valBounded n p.2
  | .arr elems props =>
    (∀ v ∈ elems, valBounded n v) ∧ (∀ p ∈ props, valBounded n p.2)

/-- Every container of the heap only points into the heap. -/
def heapClosed (h : Heap) : Prop := ∀ c ∈ h, containerBounded h.length c

/-- The root and every intermediate node along the path is an existing
heap container (the value at the full path itself is unconstrained). -/
def pathContainers (h : Heap) (v : JSVal) : List String → Prop
  | [] => True
  | k :: rest => (heapContainer h v).isSome ∧ pathContainers h (lookupKey h v k) rest

instance valBounded.dec (n : Nat) (v : JSVal) : Decidable (valBounded n v) :=
  match v with
  | .undef => isTrue True.intro
  | .null => isTrue True.intro
  | .bool _ => isTrue True.intro
  | .num _ => isTrue True.intro
  | .str _ => isTrue True.intro
  | .ref a => inferInstanceAs (Decidable (a < n))

instance containerBounded.dec (n : Nat) (c : Container) :
    Decidable (containerBounded n c) :=
  match c with
  | .obj fields => inferInstanceAs (Decidable (∀ p ∈ fields, valBounded n p.2))
  | .arr elems props => inferInstanceAs (Decidable (_ ∧ _))

instance heapClosed.dec (h : Heap) : Decidable (heapClosed h) :=
  inferInstanceAs (Decidable (∀ c ∈ h, containerBounded h.length c))

instance pathContainers.dec (h : Heap) (v : JSVal) :
    (p : List String) → Decidable (pathContainers h v p)
  | [] => isTrue True.intro
  | k :: rest =>
    have : Decidable (pathContainers h (lookupKey h v k) rest) :=
      pathContainers.dec h (lookupKey h v k) rest
    inferInstanceAs (Decidable (_ ∧ _))

end ReactStore
